import Mathlib

/-!
Verification of the xmlstruct library (flxbe/xmlstruct) against its
natural-language specification.  The Python sources are shallowly embedded:
pure functions become Lean functions, Python exceptions become `Except`
errors, Python `str` values become `String`/`List Char`, and Python object
state (the compile-time encoding cache) becomes explicit state passing.
Python leading underscores are dropped from names where they would be
awkward in Lean.
-/

namespace Xmlstruct

/-! ## Token normalization (src/xmlstruct/xml.py, `_parse_token`)

Python: `" ".join(value.split())`.  `str.split()` splits on runs of
whitespace and never yields empty words.  We model the ASCII whitespace
characters recognised by `str.split()`. -/

/-- Whitespace as recognised by Python `str.split()` (ASCII subset). -/
def pyIsSpace (c : Char) : Bool :=
  c = ' ' || c = '\t' || c = '\n' || c = '\r' || c = '\x0b' || c = '\x0c'

theorem length_dropWhile_le (p : α → Bool) (l : List α) :
    (l.dropWhile p).length ≤ l.length := by
  induction l with
  | nil => simp [List.dropWhile]
  | cons c cs ih =>
    simp only [List.dropWhile]
    cases p c
    · simp
    · simpa using Nat.le_succ_of_le ih

/-- Python `value.split()`: split on whitespace runs, dropping empty words. -/
def pySplit (l : List Char) : List (List Char) :=
  match l with
  | [] => []
  | c :: cs =>
    if pyIsSpace c then pySplit cs
    else (c :: cs.takeWhile (fun d => !pyIsSpace d)) ::
      pySplit (cs.dropWhile (fun d => !pyIsSpace d))
termination_by l.length
decreasing_by
  · simp
  · simp only [List.length_cons]
    exact Nat.lt_succ_of_le (length_dropWhile_le _ _)

/-- Python `" ".join(words)`. -/
def joinWords : List (List Char) → List Char
  | [] => []
  | [w] => w
  | w :: ws => w ++ ' ' :: joinWords ws

/-- Embedding of `xml._parse_token` (exported as `parse_token`):
`" ".join(value.split())`. -/
def parse_token (value : String) : String :=
  String.mk (joinWords (pySplit value.data))

/-! Spec-side definition of token normalization, following the spec's words:
leading and trailing whitespace is stripped and every internal run of
whitespace characters is collapsed to a single space.  `specNorm` skips the
leading whitespace, `specInWord` copies word characters, and `specAfterRun`
consumes a whitespace run, emitting one space only when another word
follows (so a trailing run is dropped). -/

/-- Scanner for the spec-side normalizer.  With `afterRun = false` it copies
characters of the current word; a whitespace character starts a run
(`afterRun = true`).  A run followed by another word is replaced by exactly
one space; a trailing run is dropped. -/
def specScan : Bool → List Char → List Char
  | _, [] => []
  | afterRun, c :: cs =>
    if pyIsSpace c then specScan true cs
    else if afterRun then ' ' :: c :: specScan false cs
    else c :: specScan false cs

/-- Strips the leading whitespace, then normalizes the rest via `specScan`. -/
def specNorm : List Char → List Char
  | [] => []
  | c :: cs => if pyIsSpace c then specNorm cs else c :: specScan false cs

theorem joinWords_cons_cons (x : Char) (w : List Char) (ps : List (List Char)) :
    joinWords ((x :: w) :: ps) = x :: joinWords (w :: ps) := by
  cases ps with
  | nil => simp [joinWords]
  | cons p ps => simp [joinWords]

theorem split_join_aux :
    ∀ n : Nat, ∀ cs : List Char, cs.length ≤ n →
      joinWords ((cs.takeWhile (fun d => !pyIsSpace d)) ::
          pySplit (cs.dropWhile (fun d => !pyIsSpace d))) = specScan false cs
      ∧ joinWords ([] :: pySplit cs) = specScan true cs := by
  intro n
  induction n with
  | zero =>
    intro cs h
    have : cs = [] := List.length_eq_zero.mp (Nat.le_zero.mp h)
    subst this
    constructor <;> simp [pySplit, joinWords, specScan]
  | succ n ih =>
    intro cs h
    cases cs with
    | nil =>
      constructor <;> simp [pySplit, joinWords, specScan]
    | cons c cs =>
      have hlen : cs.length ≤ n := Nat.le_of_succ_le_succ h
      by_cases hc : pyIsSpace c = true
      · have htw : (c :: cs).takeWhile (fun d => !pyIsSpace d) = [] := by
          simp [List.takeWhile, hc]
        have hdw : (c :: cs).dropWhile (fun d => !pyIsSpace d) = c :: cs := by
          simp [List.dropWhile, hc]
        have hps : pySplit (c :: cs) = pySplit cs := by
          rw [pySplit]; simp [hc]
        constructor
        · rw [htw, hdw, hps]
          have := (ih cs hlen).2
          rw [this]
          simp [specScan, hc]
        · rw [hps]
          have := (ih cs hlen).2
          rw [this]
          simp [specScan, hc]
      · have hc' : pyIsSpace c = false := by
          cases hcc : pyIsSpace c
          · rfl
          · exact absurd hcc hc
        have htw : (c :: cs).takeWhile (fun d => !pyIsSpace d)
            = c :: cs.takeWhile (fun d => !pyIsSpace d) := by
          simp [List.takeWhile, hc']
        have hdw : (c :: cs).dropWhile (fun d => !pyIsSpace d)
            = cs.dropWhile (fun d => !pyIsSpace d) := by
          simp [List.dropWhile, hc']
        have hps : pySplit (c :: cs)
            = (c :: cs.takeWhile (fun d => !pyIsSpace d)) ::
              pySplit (cs.dropWhile (fun d => !pyIsSpace d)) := by
          rw [pySplit]; simp [hc']
        have ih1 := (ih cs hlen).1
        constructor
        · rw [htw, hdw, joinWords_cons_cons, ih1]
          simp [specScan, hc']
        · rw [hps]
          have hjw : joinWords ([] :: (c :: cs.takeWhile (fun d => !pyIsSpace d)) ::
              pySplit (cs.dropWhile (fun d => !pyIsSpace d)))
              = ' ' :: joinWords ((c :: cs.takeWhile (fun d => !pyIsSpace d)) ::
                pySplit (cs.dropWhile (fun d => !pyIsSpace d))) := by
            simp [joinWords]
          rw [hjw, joinWords_cons_cons, ih1]
          simp [specScan, hc']

theorem split_join_norm :
    ∀ n : Nat, ∀ l : List Char, l.length ≤ n →
      joinWords (pySplit l) = specNorm l := by
  intro n
  induction n with
  | zero =>
    intro l h
    have : l = [] := List.length_eq_zero.mp (Nat.le_zero.mp h)
    subst this
    simp [pySplit, joinWords, specNorm]
  | succ n ih =>
    intro l h
    cases l with
    | nil => simp [pySplit, joinWords, specNorm]
    | cons c cs =>
      have hlen : cs.length ≤ n := Nat.le_of_succ_le_succ h
      by_cases hc : pyIsSpace c = true
      · have hps : pySplit (c :: cs) = pySplit cs := by
          rw [pySplit]; simp [hc]
        rw [hps, ih cs hlen]
        simp [specNorm, hc]
      · have hc' : pyIsSpace c = false := by
          cases hcc : pyIsSpace c
          · rfl
          · exact absurd hcc hc
        have hps : pySplit (c :: cs)
            = (c :: cs.takeWhile (fun d => !pyIsSpace d)) ::
              pySplit (cs.dropWhile (fun d => !pyIsSpace d)) := by
          rw [pySplit]; simp [hc']
        rw [hps, joinWords_cons_cons,
          (split_join_aux cs.length cs (Nat.le_refl _)).1]
        simp [specNorm, hc']

/-- C8: token normalization (`_parse_token`) strips leading and trailing
whitespace and collapses every internal whitespace run to a single space
(formalised as agreement with the spec-side normalizer `specNorm`); in
particular the input string with a literal newline normalizes to
"Some Test". -/
theorem c8_token_normalization :
    (∀ s : String, parse_token s = String.mk (specNorm s.data))
    ∧ parse_token "    Some   \n Test " = "Some Test" := by
  constructor
  · intro s
    unfold parse_token
    rw [split_join_norm s.data.length s.data (Nat.le_refl _)]
  · show String.mk (joinWords (pySplit "    Some   \n Test ".data)) = "Some Test"
    rw [split_join_norm _ _ (Nat.le_refl _)]
    decide

/-! ## Qualified-name resolution (src/xmlstruct/__init__.py,
`_get_tag` and `_resolve_full_tag`) -/

/-- Namespace configuration carried by a `Value`/`Attribute` annotation:
the `DefaultNamespace` marker, the explicit no-namespace marker
(Python `namespace=None`), or an explicit namespace string. -/
inductive NsConfig where
  | defaultNs : NsConfig
  | noNs : NsConfig
  | ns (uri : String) : NsConfig
  deriving Repr, DecidableEq

/-- Embedding of the `Value` / `Attribute` field configuration: both carry
an optional explicit name and a namespace configuration. -/
structure FieldConfig where
  name : Option String
  nsConfig : NsConfig
  deriving Repr, DecidableEq

/-- Embedding of `_resolve_full_tag`: prepend the namespace in braces when
one is present. -/
def resolve_full_tag (local_name : String) (ns : Option String) : String :=
  match ns with
  | none => local_name
  | some n => "\x7b" ++ n ++ "\x7d" ++ local_name

/-- Python `config.name or member_name`: both `None` and the empty string
are falsy, so they fall back to the member name. -/
def pyOrName (n : Option String) (member_name : String) : String :=
  match n with
  | none => member_name
  | some s => if s = "" then member_name else s

/-- Embedding of `_get_tag`. -/
def get_tag (config : Option FieldConfig) (member_name : String)
    (default_namespace : Option String) : String :=
  match config with
  | some cfg =>
    let nsv : Option String :=
      match cfg.nsConfig with
      | .defaultNs => default_namespace
      | .noNs => none
      | .ns s => some s
    resolve_full_tag (pyOrName cfg.name member_name) nsv
  | none => resolve_full_tag member_name default_namespace

/-- C4: qualified-name resolution follows strict precedence: an explicit
field namespace is used (independently of the enclosing default), the
explicit no-namespace marker yields a tag with no namespace part
(independently of the enclosing default), and otherwise the enclosing
default namespace is used; the final conjunct shows all three cases
holding simultaneously for three fields of one record with default
namespace "urn:test". -/
theorem c4_namespace_precedence :
    ∀ (nm : Option String) (member : String) (d d' : Option String) (s : String),
      (get_tag (some ⟨nm, .ns s⟩) member d
          = resolve_full_tag (pyOrName nm member) (some s)
        ∧ get_tag (some ⟨nm, .ns s⟩) member d = get_tag (some ⟨nm, .ns s⟩) member d')
      ∧ (get_tag (some ⟨nm, .noNs⟩) member d = pyOrName nm member
        ∧ get_tag (some ⟨nm, .noNs⟩) member d = get_tag (some ⟨nm, .noNs⟩) member d')
      ∧ (get_tag (some ⟨nm, .defaultNs⟩) member d
          = resolve_full_tag (pyOrName nm member) d
        ∧ get_tag none member d = resolve_full_tag member d)
      ∧ (get_tag (some ⟨none, .defaultNs⟩) "a" (some "urn:test") = "\x7burn:test\x7da"
        ∧ get_tag (some ⟨some "b", .ns "urn:test"⟩) "not_b" (some "urn:test")
            = "\x7burn:test\x7db"
        ∧ get_tag (some ⟨none, .noNs⟩) "c" (some "urn:test") = "c") := by
  intro nm member d d' s
  exact ⟨⟨rfl, rfl⟩, ⟨rfl, rfl⟩, ⟨rfl, rfl⟩, by decide, by decide, by decide⟩

/-! ## Decode engine (src/xmlstruct/__init__.py)

Python values decoded from XML are embedded in a single universe `PyVal`;
Python `None` is `PyVal.pyNone`.  Python exceptions become `Except` errors.
Association lists with Python-dict semantics (insertion order kept,
assignment overwrites in place) model the dicts of the decode engine. -/

/-- Universe of decoded Python values (dataclass instances are `obj`). -/
inductive PyVal where
  | pyNone : PyVal
  | str (s : String) : PyVal
  | int (n : Int) : PyVal
  | listV (items : List PyVal) : PyVal
  | obj (cls : String) (fields : List PyVal) : PyVal
  deriving Repr

/-- Decode-time and derive-time errors raised by the engine. -/
inductive DecodeErr where
  | duplicateValue (tag : String)
  | missingValue (tag : String)
  | emptyNode (tag : String)
  | missingAttribute (tag : String)
  | unexpectedRoot (tag : String)
  | missingVariant
  | textValueTwice
  | convError (token : String)
  | unknownType (t : Nat)
  | fuelOut
  | internal
  deriving Repr, DecidableEq

/-- Lookup in a Python-dict association list. -/
def getKey {α : Type} : List (String × α) → String → Option α
  | [], _ => none
  | (k, v) :: rest, key => if k = key then some v else getKey rest key

/-- Python dict assignment: overwrite in place if the key exists, else
append at the end (insertion order). -/
def setKey {α : Type} : List (String × α) → String → α → List (String × α)
  | [], key, v => [(key, v)]
  | (k, w) :: rest, key, v =>
    if k = key then (key, v) :: rest else (k, w) :: setKey rest key v

/-- Build a Python dict from a list of key-value pairs (dict comprehension
semantics: later duplicate keys overwrite earlier ones in place). -/
def mkDict {α : Type} (l : List (String × α)) : List (String × α) :=
  l.foldl (fun d kv => setKey d kv.1 kv.2) []

/-- Tree form of a parsed XML element, as produced by `xml.parse_xml` and
consumed by the decode engine (`tag` is the fully resolved qualified tag,
`get` reads an attribute, iteration visits `children`). -/
inductive XmlElement where
  | mk (tag : String) (attributes : List (String × String))
      (text : Option String) (children : List XmlElement)

/-- Resolved qualified tag of the element. -/
def XmlElement.tag : XmlElement → String
  | .mk t _ _ _ => t

/-- Attribute dict of the element. -/
def XmlElement.attributes : XmlElement → List (String × String)
  | .mk _ a _ _ => a

/-- Textual content of the element, `none` when there is no value. -/
def XmlElement.text : XmlElement → Option String
  | .mk _ _ tx _ => tx

/-- Child elements in document order. -/
def XmlElement.children : XmlElement → List XmlElement
  | .mk _ _ _ c => c

/-- Python `node.get(name)`: attribute lookup. -/
def XmlElement.get (node : XmlElement) (name : String) : Option String :=
  getKey node.attributes name

/-- Modelled from the spec: `parse_xml` and the `text` field it fills are
not under src (xml.py only has the superseded `XmlParser`); per the spec,
the textual content of an element is reduced to a normalized token and an
empty normalized token is treated as no value (the element is empty,
self-closing or whitespace-only), so `text` is `none` exactly when the raw
character data normalizes to the empty token. -/
def parse_xml_text (raw : String) : Option String :=
  if parse_token raw = "" then none else some raw

/-- Embedding of `_parse_string`: return `node.text` unchanged. -/
def parse_string (node : XmlElement) : Except DecodeErr (Option PyVal) :=
  .ok (node.text.map .str)

/-- Shared shape of `_parse_int`, `_parse_float` and `_parse_datetime`:
read `node.text`, return `None` when it is absent, otherwise convert the
normalized token; `conv` stands for `int` / `float` /
`datetime.fromisoformat`, each raising on a bad literal. -/
def parse_scalar (conv : String → Except DecodeErr PyVal) (node : XmlElement) :
    Except DecodeErr (Option PyVal) :=
  match node.text with
  | none => .ok none
  | some v => (conv (parse_token v)).map some

/-- Embedding of `_parse_int` with a simple model of Python `int`. -/
def parse_int (node : XmlElement) : Except DecodeErr (Option PyVal) :=
  parse_scalar (fun tok => match tok.toInt? with
    | none => .error (.convError tok)
    | some n => .ok (.int n)) node

/-- Deep embedding of the three value-encoding classes:
`RequiredValueEncoding` (with its decode function), and the
`OptionalValueEncoding` / `ListEncoding` wrappers. -/
inductive Encoding where
  | required (decode : XmlElement → Except DecodeErr (Option PyVal)) : Encoding
  | optionalE (inner : Encoding) : Encoding
  | listE (inner : Encoding) : Encoding

/-- Per-field container state: `Required` holds `None` or a value,
`Optional` holds the `NoValue` sentinel (outer `none`) or a decoded value
(possibly Python `None`), `List` accumulates values. -/
inductive EncState where
  | req (cur : Option PyVal) : EncState
  | opt (cur : Option (Option PyVal)) : EncState
  | lst (items : List PyVal) : EncState
  deriving Repr

/-- The `decode` callable of an encoding; the optional and list wrappers
delegate to their inner encoding. -/
def Encoding.decode : Encoding → XmlElement → Except DecodeErr (Option PyVal)
  | .required d, node => d node
  | .optionalE inner, node => inner.decode node
  | .listE inner, node => inner.decode node

/-- Embedding of `create_empty_value`: `None` / `NoValue` / `[]`. -/
def Encoding.create_empty_value : Encoding → EncState
  | .required _ => .req none
  | .optionalE _ => .opt none
  | .listE _ => .lst []

/-- Embedding of `unwrap`: `Required` raises on a still-unset value,
`Optional` maps the sentinel (and a stored Python `None`) to `None`,
`List` returns the accumulated list.  The final catch-all covers
state shapes that `create_empty_value` never produces. -/
def Encoding.unwrap : Encoding → EncState → String → Except DecodeErr PyVal
  | .required _, .req cur, tag_name =>
    match cur with
    | none => .error (.missingValue tag_name)
    | some v => .ok v
  | .optionalE _, .opt cur, _ =>
    match cur with
    | none => .ok .pyNone
    | some none => .ok .pyNone
    | some (some v) => .ok v
  | .listE _, .lst items, _ => .ok (.listV items)
  | _, _, _ => .error .internal

/-- Embedding of `parse` (push one occurrence into the container):
`Required` raises on a second push and on a decode yielding `None`;
`Optional` raises whenever the state is not the sentinel; `List` runs a
fresh decode (empty value, parse, unwrap) and appends. -/
def Encoding.parse : Encoding → EncState → XmlElement → Except DecodeErr EncState
  | .required d, .req cur, node =>
    if cur.isSome then .error (.duplicateValue node.tag)
    else
      match d node with
      | .error e => .error e
      | .ok none => .error (.missingValue node.tag)
      | .ok (some v) => .ok (.req (some v))
  | .optionalE inner, .opt cur, node =>
    if cur.isSome then .error (.duplicateValue node.tag)
    else
      match inner.decode node with
      | .error e => .error e
      | .ok v => .ok (.opt (some v))
  | .listE inner, .lst items, node =>
    match inner.parse inner.create_empty_value node with
    | .error e => .error e
    | .ok st =>
      match inner.unwrap st node.tag with
      | .error e => .error e
      | .ok v => .ok (.lst (items ++ [v]))
  | _, _, _ => .error .internal

/-- One full decode of a single occurrence of a field: fresh empty value,
one `parse` push, then `unwrap` (this is exactly the fresh inner decode
that `ListEncoding.parse` performs per occurrence). -/
def decodeField (enc : Encoding) (node : XmlElement) : Except DecodeErr PyVal :=
  match enc.parse enc.create_empty_value node with
  | .error e => .error e
  | .ok st => enc.unwrap st node.tag

/-- Deep embedding of `RequiredAttributeEncoding` and
`OptionalAttributeEncoding`. -/
inductive AttributeEncoding where
  | required (decode : String → Except DecodeErr PyVal) : AttributeEncoding
  | optionalE (inner : AttributeEncoding) : AttributeEncoding

/-- Embedding of the attribute `decode` method: a required attribute raises
`MissingAttribute` when absent; an optional one yields Python `None`. -/
def AttributeEncoding.decode :
    AttributeEncoding → String → Option String → Except DecodeErr PyVal
  | .required d, tag_name, value =>
    match value with
    | none => .error (.missingAttribute tag_name)
    | some v => d v
  | .optionalE inner, tag_name, value =>
    match value with
    | none => .ok .pyNone
    | some v => inner.decode tag_name (some v)

/-- The bindings assembled by `_derive_dataclass` for one record type. -/
structure RecordBindings where
  value_encodings : List (String × Encoding)
  text_value_encoding : Option (String × Encoding)
  attribute_encodings : List (String × AttributeEncoding)
  argument_names : List String
  cls : String

/-- The child loop of `_derive_dataclass._decode`: children whose tag has
no entry in `values` are skipped; recognised children are pushed into
their container. -/
def decodeChildren (init : List (String × (Encoding × EncState)))
    (children : List XmlElement) :
    Except DecodeErr (List (String × (Encoding × EncState))) :=
  children.foldlM (fun values child =>
    match getKey values child.tag with
    | none => .ok values
    | some (enc, value) =>
      match enc.parse value child with
      | .error e => .error e
      | .ok value2 => .ok (setKey values child.tag (enc, value2))) init

/-- The unwrap comprehension of `_derive_dataclass._decode`: build the
`arguments` dict by unwrapping every container in insertion order. -/
def unwrapValues (values : List (String × (Encoding × EncState))) :
    Except DecodeErr (List (String × PyVal)) :=
  values.foldlM (fun args tev =>
    match tev.2.1.unwrap tev.2.2 tev.1 with
    | .error e => .error e
    | .ok v => .ok (setKey args tev.1 v)) []

/-- The text-value step of `_derive_dataclass._decode`: when a text-content
field exists, assign the raw decode result of the whole node to its
argument slot (a Python `None` result is stored as `pyNone`). -/
def applyTextValue (tve : Option (String × Encoding)) (node : XmlElement)
    (arguments : List (String × PyVal)) :
    Except DecodeErr (List (String × PyVal)) :=
  match tve with
  | none => .ok arguments
  | some fe =>
    match fe.2.decode node with
    | .error e => .error e
    | .ok v => .ok (setKey arguments fe.1 (v.getD .pyNone))

/-- The attribute loop of `_derive_dataclass._decode`: each attribute
binding reads `node.get(tag)` and assigns the decoded value into the
`arguments` dict (overwriting any same-named element argument). -/
def applyAttributes (aes : List (String × AttributeEncoding))
    (attrs : List (String × String)) (arguments : List (String × PyVal)) :
    Except DecodeErr (List (String × PyVal)) :=
  aes.foldlM (fun args ae =>
    match ae.2.decode ae.1 (getKey attrs ae.1) with
    | .error e => .error e
    | .ok v => .ok (setKey args ae.1 v)) arguments

/-- The final constructor call `cls(*[arguments[t] for t in argument_names])`. -/
def collectArguments (arguments : List (String × PyVal)) (names : List String) :
    Except DecodeErr (List PyVal) :=
  names.mapM (fun an =>
    match getKey arguments an with
    | none => .error .internal
    | some v => .ok v)

/-- Embedding of `_derive_dataclass._decode`: build the per-tag container
dict, fold over the children, unwrap every container, then bind the text
value and finally the attributes (overwriting any same-named argument),
and assemble the dataclass from `argument_names`. -/
def record_decode (b : RecordBindings) (node : XmlElement) :
    Except DecodeErr PyVal := do
  let init := mkDict (b.value_encodings.map
    (fun te => (te.1, (te.2, te.2.create_empty_value))))
  let values ← decodeChildren init node.children
  let arguments ← unwrapValues values
  let arguments2 ← applyTextValue b.text_value_encoding node arguments
  let arguments3 ← applyAttributes b.attribute_encodings node.attributes arguments2
  let fieldVals ← collectArguments arguments3 b.argument_names
  .ok (.obj b.cls fieldVals)

/-- Embedding of `DocumentEncoding.parse` after `parse_xml` has produced
the root element: check the root tag, decode, and raise "Empty node" when
the decoded value is `None`. -/
def document_parse (encoding : Encoding) (xml_tag : String)
    (node : XmlElement) : Except DecodeErr PyVal :=
  if node.tag ≠ xml_tag then .error (.unexpectedRoot node.tag)
  else
    match encoding.decode node with
    | .error e => .error e
    | .ok none => .error (.emptyNode xml_tag)
    | .ok (some v) => .ok v

/-- C3: for an element whose textual content normalizes to the empty token,
the element carries no value (`text = none`); an optional scalar field then
decodes to Python `None` (not the empty string), while a required scalar
field raises: within a record the push raises a missing-value error, and at
the document root the decode raises the "Empty node" error.  This covers
the string decoder and, via an arbitrary conversion `conv`, the integer,
float and datetime decoders, which all share the `parse_scalar` shape. -/
theorem c3_empty_token_scalar_decode :
    ∀ (raw tagn : String) (attrs : List (String × String))
      (children : List XmlElement) (conv : String → Except DecodeErr PyVal),
      parse_token raw = "" →
      parse_xml_text raw = none
      ∧ decodeField (.optionalE (.required parse_string))
          (.mk tagn attrs (parse_xml_text raw) children) = .ok .pyNone
      ∧ decodeField (.optionalE (.required (parse_scalar conv)))
          (.mk tagn attrs (parse_xml_text raw) children) = .ok .pyNone
      ∧ (Encoding.required parse_string).parse (.req none)
          (.mk tagn attrs (parse_xml_text raw) children)
          = .error (.missingValue tagn)
      ∧ (Encoding.required (parse_scalar conv)).parse (.req none)
          (.mk tagn attrs (parse_xml_text raw) children)
          = .error (.missingValue tagn)
      ∧ document_parse (.required parse_string) tagn
          (.mk tagn attrs (parse_xml_text raw) children)
          = .error (.emptyNode tagn)
      ∧ document_parse (.required (parse_scalar conv)) tagn
          (.mk tagn attrs (parse_xml_text raw) children)
          = .error (.emptyNode tagn) := by
  intro raw tagn attrs children conv h
  have ht : parse_xml_text raw = none := by
    simp [parse_xml_text, h]
  rw [ht]
  refine ⟨rfl, ?_, ?_, ?_, ?_, ?_, ?_⟩
  · simp [decodeField, Encoding.parse, Encoding.create_empty_value,
      Encoding.decode, parse_string, XmlElement.text, Encoding.unwrap]
  · simp [decodeField, Encoding.parse, Encoding.create_empty_value,
      Encoding.decode, parse_scalar, XmlElement.text, Encoding.unwrap]
  · simp [Encoding.parse, parse_string, XmlElement.text, XmlElement.tag]
  · simp [Encoding.parse, parse_scalar, XmlElement.text, XmlElement.tag]
  · simp [document_parse, Encoding.decode, parse_string, XmlElement.text,
      XmlElement.tag]
  · simp [document_parse, Encoding.decode, parse_scalar, XmlElement.text,
      XmlElement.tag]

/-- Witness for C3 at the whitespace-only content " " of an element
tagged "b", with a concrete conversion function. -/
theorem c3_empty_token_scalar_decode_witness :
    parse_token " " = ""
    ∧ (parse_xml_text " " = none
      ∧ decodeField (.optionalE (.required parse_string))
          (.mk "b" [] (parse_xml_text " ") []) = .ok .pyNone
      ∧ decodeField (.optionalE (.required
          (parse_scalar (fun _ => .ok (.int 0)))))
          (.mk "b" [] (parse_xml_text " ") []) = .ok .pyNone
      ∧ (Encoding.required parse_string).parse (.req none)
          (.mk "b" [] (parse_xml_text " ") []) = .error (.missingValue "b")
      ∧ (Encoding.required (parse_scalar (fun _ => .ok (.int 0)))).parse
          (.req none) (.mk "b" [] (parse_xml_text " ") [])
          = .error (.missingValue "b")
      ∧ document_parse (.required parse_string) "b"
          (.mk "b" [] (parse_xml_text " ") []) = .error (.emptyNode "b")
      ∧ document_parse (.required (parse_scalar (fun _ => .ok (.int 0)))) "b"
          (.mk "b" [] (parse_xml_text " ") []) = .error (.emptyNode "b")) :=
  have h : parse_token " " = "" := by
    unfold parse_token
    rw [split_join_norm _ _ (Nat.le_refl _)]
    decide
  ⟨h, c3_empty_token_scalar_decode " " "b" [] [] (fun _ => .ok (.int 0)) h⟩

theorem except_bind_ok {ε α β : Type} (a : α) (f : α → Except ε β) :
    (Except.ok a >>= f) = f a := rfl

theorem except_bind_error {ε α β : Type} (e : ε) (f : α → Except ε β) :
    ((Except.error e : Except ε α) >>= f) = Except.error e := rfl

theorem getKey_setKey_self {α : Type} (d : List (String × α)) (k : String)
    (v : α) : getKey (setKey d k v) k = some v := by
  induction d with
  | nil => simp [setKey, getKey]
  | cons p rest ih =>
    obtain ⟨pk, pv⟩ := p
    by_cases hpk : pk = k
    · subst hpk
      simp [setKey, getKey]
    · simp [setKey, getKey, hpk, ih]

theorem getKey_setKey_ne {α : Type} (d : List (String × α)) (k k' : String)
    (v : α) (h : k ≠ k') : getKey (setKey d k v) k' = getKey d k' := by
  induction d with
  | nil => simp [setKey, getKey, h]
  | cons p rest ih =>
    obtain ⟨pk, pv⟩ := p
    by_cases hpk : pk = k
    · subst hpk
      simp [setKey, getKey, h]
    · simp only [setKey, if_neg hpk]
      by_cases hpk' : pk = k'
      · simp [getKey, hpk']
      · simp [getKey, hpk', ih]

theorem getKey_foldl_setKey_none {α : Type} (l : List (String × α))
    (k : String) (h : ∀ x ∈ l, x.1 ≠ k) :
    ∀ d : List (String × α), getKey d k = none →
      getKey (l.foldl (fun d kv => setKey d kv.1 kv.2) d) k = none := by
  induction l with
  | nil => intro d hd; simpa using hd
  | cons x xs ih =>
    intro d hd
    simp only [List.foldl_cons]
    refine ih (fun y hy => h y (List.mem_cons_of_mem _ hy)) _ ?_
    rw [getKey_setKey_ne _ _ _ _ (h x (List.mem_cons_self _ _))]
    exact hd

theorem getKey_mkDict_none {α : Type} (l : List (String × α)) (k : String)
    (h : ∀ x ∈ l, x.1 ≠ k) : getKey (mkDict l) k = none := by
  unfold mkDict
  exact getKey_foldl_setKey_none l k h [] rfl

theorem decodeChildren_nil (init : List (String × (Encoding × EncState))) :
    decodeChildren init [] = .ok init := rfl

theorem applyTextValue_some (fe : String × Encoding) (node : XmlElement)
    (args : List (String × PyVal)) :
    applyTextValue (some fe) node args
      = match fe.2.decode node with
        | .error e => .error e
        | .ok v => .ok (setKey args fe.1 (v.getD .pyNone)) := rfl

theorem decodeChildren_cons_none
    {init : List (String × (Encoding × EncState))} {c : XmlElement}
    (cs : List XmlElement) (h : getKey init c.tag = none) :
    decodeChildren init (c :: cs) = decodeChildren init cs := by
  unfold decodeChildren
  rw [List.foldlM_cons]
  simp only [h, except_bind_ok]

theorem decodeChildren_cons_err
    {init : List (String × (Encoding × EncState))} {c : XmlElement}
    {enc : Encoding} {value : EncState} {e : DecodeErr}
    (cs : List XmlElement) (h : getKey init c.tag = some (enc, value))
    (hp : enc.parse value c = .error e) :
    decodeChildren init (c :: cs) = .error e := by
  unfold decodeChildren
  rw [List.foldlM_cons]
  simp only [h, hp, except_bind_error]

theorem decodeChildren_cons_some
    {init : List (String × (Encoding × EncState))} {c : XmlElement}
    {enc : Encoding} {value value2 : EncState}
    (cs : List XmlElement) (h : getKey init c.tag = some (enc, value))
    (hp : enc.parse value c = .ok value2) :
    decodeChildren init (c :: cs)
      = decodeChildren (setKey init c.tag (enc, value2)) cs := by
  unfold decodeChildren
  rw [List.foldlM_cons]
  simp only [h, hp, except_bind_ok]

theorem decodeChildren_getKey_none (children : List XmlElement) :
    ∀ (init vs : List (String × (Encoding × EncState))) (k : String),
      getKey init k = none → decodeChildren init children = .ok vs →
      getKey vs k = none := by
  induction children with
  | nil =>
    intro init vs k h hr
    rw [decodeChildren_nil] at hr
    cases hr
    exact h
  | cons c cs ih =>
    intro init vs k h hr
    cases hlook : getKey init c.tag with
    | none =>
      rw [decodeChildren_cons_none cs hlook] at hr
      exact ih init vs k h hr
    | some ev =>
      obtain ⟨enc, value⟩ := ev
      cases hp : enc.parse value c with
      | error e =>
        rw [decodeChildren_cons_err cs hlook hp] at hr
        cases hr
      | ok value2 =>
        rw [decodeChildren_cons_some cs hlook hp] at hr
        refine ih _ vs k ?_ hr
        have hck : c.tag ≠ k := by
          intro hckeq
          rw [hckeq, h] at hlook
          cases hlook
        rw [getKey_setKey_ne _ _ _ _ hck]
        exact h

theorem decodeChildren_append (init : List (String × (Encoding × EncState)))
    (l1 l2 : List XmlElement) :
    decodeChildren init (l1 ++ l2)
      = decodeChildren init l1 >>= fun vs => decodeChildren vs l2 := by
  unfold decodeChildren
  exact List.foldlM_append _ _ _ _

/-- C5: a child element whose tag matches no element field binding of the
record is skipped entirely (its whole subtree, since the step never looks
inside it); the record decodes exactly as if the child were absent, so an
unknown child never makes the parse fail and all recognised fields keep
their values.  The hypothesis on the text-content encoding states that it
reads only the textual content of the node (true of all built-in
decoders), not the child list. -/
theorem c5_unknown_child_skipped :
    ∀ (b : RecordBindings) (tagn : String) (attrs : List (String × String))
      (txt : Option String) (l1 l2 : List XmlElement) (c : XmlElement),
      (∀ e ∈ b.value_encodings, e.1 ≠ c.tag) →
      (∀ fe, b.text_value_encoding = some fe →
        ∀ (tg : String) (a : List (String × String)) (tx : Option String)
          (ch1 ch2 : List XmlElement),
          fe.2.decode (.mk tg a tx ch1) = fe.2.decode (.mk tg a tx ch2)) →
      record_decode b (.mk tagn attrs txt (l1 ++ c :: l2))
        = record_decode b (.mk tagn attrs txt (l1 ++ l2)) := by
  intro b tagn attrs txt l1 l2 c h htext
  unfold record_decode
  simp only [XmlElement.children, XmlElement.tag, XmlElement.get,
    XmlElement.attributes]
  have hinit : getKey (mkDict (b.value_encodings.map
      (fun te => (te.1, (te.2, te.2.create_empty_value))))) c.tag = none := by
    refine getKey_mkDict_none _ _ ?_
    intro x hx
    obtain ⟨te, hte, rfl⟩ := List.mem_map.mp hx
    exact h te hte
  rw [decodeChildren_append, decodeChildren_append]
  cases h1 : decodeChildren (mkDict (b.value_encodings.map
      (fun te => (te.1, (te.2, te.2.create_empty_value))))) l1 with
  | error e => simp only [except_bind_error]
  | ok vs =>
    simp only [except_bind_ok]
    have hvs : getKey vs c.tag = none :=
      decodeChildren_getKey_none l1 _ vs c.tag hinit h1
    have hstep : decodeChildren vs (c :: l2) = decodeChildren vs l2 :=
      decodeChildren_cons_none l2 hvs
    rw [hstep]
    cases h2 : decodeChildren vs l2 with
    | error e => rfl
    | ok vs2 =>
      simp only [except_bind_ok]
      cases hu : unwrapValues vs2 with
      | error e => rfl
      | ok args =>
        simp only [except_bind_ok]
        cases hb : b.text_value_encoding with
        | none => rfl
        | some fe =>
          have htv : applyTextValue (some fe)
              (.mk tagn attrs txt (l1 ++ c :: l2)) args
              = applyTextValue (some fe)
                (.mk tagn attrs txt (l1 ++ l2)) args := by
            rw [applyTextValue_some, applyTextValue_some,
              htext fe hb tagn attrs txt (l1 ++ c :: l2) (l1 ++ l2)]
          rw [htv]

/-- Witness for C5: a record with one recognised string field "a" and a
text-content field; an unknown sibling "x" carrying its own nested child is
skipped and the decode result is unchanged. -/
theorem c5_unknown_child_skipped_witness :
    record_decode
      (RecordBindings.mk [("a", .required parse_string)]
        (some ("v", .required parse_string)) [] ["a", "v"] "Data")
      (.mk "data" [] (some "T")
        ([.mk "x" [] none [.mk "y" [] (some "nested") []]]
          ++ [.mk "a" [] (some "A") []]))
      = record_decode
        (RecordBindings.mk [("a", .required parse_string)]
          (some ("v", .required parse_string)) [] ["a", "v"] "Data")
        (.mk "data" [] (some "T") [.mk "a" [] (some "A") []]) := by
  have := c5_unknown_child_skipped
    (RecordBindings.mk [("a", .required parse_string)]
      (some ("v", .required parse_string)) [] ["a", "v"] "Data")
    "data" [] (some "T") [] [.mk "a" [] (some "A") []]
    (.mk "x" [] none [.mk "y" [] (some "nested") []])
    (by
      intro e he
      simp only [List.mem_singleton] at he
      subst he
      decide)
    (by
      intro fe hfe tg a tx ch1 ch2
      cases hfe
      rfl)
  simpa using this

theorem listE_parse_ok {inner : Encoding} {node : XmlElement} {v : PyVal}
    (cur : List PyVal) (h : decodeField inner node = .ok v) :
    (Encoding.listE inner).parse (.lst cur) node = .ok (.lst (cur ++ [v])) := by
  unfold decodeField at h
  split at h
  · cases h
  · rename_i st heq
    simp only [Encoding.parse, heq, h]

/-- C7: pushing a second occurrence into a `Required` container raises a
duplicate-value error; so does pushing into an `OptionalSlot` whose state
is anything other than the `NoValue` sentinel (in particular when the first
occurrence decoded to Python `None`, state `some none`); a `Sequence`
container accepts every occurrence, runs a fresh inner decode per
occurrence (`decodeField`: fresh empty value, parse, unwrap) and appends
the results in source document order. -/
theorem c7_container_push_semantics :
    ∀ (inner : Encoding) (nodes : List XmlElement) (vs : List PyVal),
      nodes.mapM (decodeField inner) = .ok vs →
      (∀ (d : XmlElement → Except DecodeErr (Option PyVal)) (v : PyVal)
          (node : XmlElement),
        (Encoding.required d).parse (.req (some v)) node
          = .error (.duplicateValue node.tag))
      ∧ (∀ (inner2 : Encoding) (w : Option PyVal) (node : XmlElement),
        (Encoding.optionalE inner2).parse (.opt (some w)) node
          = .error (.duplicateValue node.tag))
      ∧ ∀ cur : List PyVal,
        nodes.foldlM (fun st n => (Encoding.listE inner).parse st n) (.lst cur)
          = .ok (.lst (cur ++ vs)) := by
  intro inner nodes
  refine fun vs hm => ⟨?_, ?_, ?_⟩
  · intro d v node
    simp [Encoding.parse]
  · intro inner2 w node
    simp [Encoding.parse]
  · induction nodes generalizing vs with
    | nil =>
      intro cur
      rw [List.mapM_nil] at hm
      cases hm
      simp only [List.foldlM_nil, List.append_nil]
      rfl
    | cons n ns ih =>
      intro cur
      rw [List.mapM_cons] at hm
      revert hm
      cases hf : decodeField inner n with
      | error e => intro hm; cases hm
      | ok v =>
        cases hmm : ns.mapM (decodeField inner) with
        | error e =>
          intro hm
          simp only [except_bind_ok, hmm, except_bind_error] at hm
          cases hm
        | ok vs2 =>
          intro hm
          simp only [except_bind_ok, hmm] at hm
          cases hm
          rw [List.foldlM_cons, listE_parse_ok cur hf, except_bind_ok,
            ih vs2 hmm (cur ++ [v])]
          simp

/-- Witness for C7 on a two-occurrence sequence of string elements. -/
theorem c7_container_push_semantics_witness :
    ((∀ (d : XmlElement → Except DecodeErr (Option PyVal)) (v : PyVal)
        (node : XmlElement),
      (Encoding.required d).parse (.req (some v)) node
        = .error (.duplicateValue node.tag))
    ∧ (∀ (inner2 : Encoding) (w : Option PyVal) (node : XmlElement),
      (Encoding.optionalE inner2).parse (.opt (some w)) node
        = .error (.duplicateValue node.tag))
    ∧ ∀ cur : List PyVal,
      [XmlElement.mk "item" [] (some "A") [],
        XmlElement.mk "item" [] (some "B") []].foldlM
          (fun st n => (Encoding.listE (.required parse_string)).parse st n)
          (.lst cur)
        = .ok (.lst (cur ++ [.str "A", .str "B"]))) :=
  c7_container_push_semantics (.required parse_string)
    [XmlElement.mk "item" [] (some "A") [], XmlElement.mk "item" [] (some "B") []]
    [.str "A", .str "B"] rfl

/-! ## Binding collection (`_derive_dataclass` field loop) -/

/-- Placement and (already derived) encoding of one dataclass field, as
extracted from its metadata: an element-bound value, the text-content
binding, or an attribute binding.  (The `_derive` recursion producing each
field encoding is modelled separately; fields here carry their encoding,
as fields annotated with an explicit encoding do.) -/
inductive FieldKind where
  | value (cfg : Option FieldConfig) (enc : Encoding) : FieldKind
  | textValue (enc : Encoding) : FieldKind
  | attribute (cfg : Option FieldConfig) (enc : AttributeEncoding) : FieldKind

/-- A dataclass field: member name plus its placement metadata. -/
structure FieldSpec where
  name : String
  kind : FieldKind

/-- The field loop of `_derive_dataclass`: element fields append a
`(tag, encoding)` value binding, a second text-content field raises, and
attribute fields append an attribute binding; every field appends its
resolved tag (or member name for text content) to `argument_names`.  No
duplicate-name check is performed (the source carries a TODO for that). -/
def collect_bindings (fields : List FieldSpec)
    (default_namespace : Option String) (cls : String) :
    Except DecodeErr RecordBindings := do
  let acc ← fields.foldlM (fun acc f =>
    match f.kind with
    | .value cfg enc =>
      let field_tag := get_tag cfg f.name default_namespace
      .ok (acc.1 ++ [field_tag], acc.2.1 ++ [(field_tag, enc)],
        acc.2.2.1, acc.2.2.2)
    | .textValue enc =>
      match acc.2.2.1 with
      | some _ => .error .textValueTwice
      | none => .ok (acc.1 ++ [f.name], acc.2.1, some (f.name, enc), acc.2.2.2)
    | .attribute cfg enc =>
      let field_tag := get_tag cfg f.name default_namespace
      .ok (acc.1 ++ [field_tag], acc.2.1, acc.2.2.1,
        acc.2.2.2 ++ [(field_tag, enc)]))
    (([], [], none, []) : List String × List (String × Encoding) ×
      Option (String × Encoding) × List (String × AttributeEncoding))
  .ok ⟨acc.2.1, acc.2.2.1, acc.2.2.2, acc.1, cls⟩

/-- C10: when an element-bound field and an attribute-bound field of the
same record resolve to the same qualified tag `t`, derive succeeds (no
duplicate-name compile error: `collect_bindings` returns bindings whose
`argument_names` lists `t` twice), and decoding assigns the decoded
attribute value `va` to both dataclass fields: the element child decodes to
`w`, but the attribute step overwrites the argument entry keyed `t` after
the element values are unwrapped, so `w` is silently discarded. -/
theorem c10_colliding_attribute_element_tags :
    ∀ (f1 f2 : String) (cfg1 cfg2 : Option FieldConfig) (dns : Option String)
      (cls t : String) (eEnc : Encoding)
      (aDec : String → Except DecodeErr PyVal)
      (tagn : String) (attrs : List (String × String)) (txt : Option String)
      (children : List XmlElement) (s : String) (va w : PyVal) (st : EncState),
      get_tag cfg1 f1 dns = t →
      get_tag cfg2 f2 dns = t →
      decodeChildren [(t, (eEnc, eEnc.create_empty_value))] children
        = .ok [(t, (eEnc, st))] →
      eEnc.unwrap st t = .ok w →
      getKey attrs t = some s →
      aDec s = .ok va →
      collect_bindings
          [⟨f1, .value cfg1 eEnc⟩, ⟨f2, .attribute cfg2 (.required aDec)⟩]
          dns cls
        = .ok ⟨[(t, eEnc)], none, [(t, .required aDec)], [t, t], cls⟩
      ∧ record_decode ⟨[(t, eEnc)], none, [(t, .required aDec)], [t, t], cls⟩
          (.mk tagn attrs txt children)
        = .ok (.obj cls [va, va]) := by
  intro f1 f2 cfg1 cfg2 dns cls t eEnc aDec tagn attrs txt children s va w st
  intro ht1 ht2 hchild hunwrap hattr hadec
  constructor
  · have hc : collect_bindings
        [⟨f1, .value cfg1 eEnc⟩, ⟨f2, .attribute cfg2 (.required aDec)⟩]
        dns cls
        = .ok ⟨[(get_tag cfg1 f1 dns, eEnc)], none,
            [(get_tag cfg2 f2 dns, .required aDec)],
            [get_tag cfg1 f1 dns, get_tag cfg2 f2 dns], cls⟩ := rfl
    rw [hc, ht1, ht2]
  · unfold record_decode
    simp only [XmlElement.children, XmlElement.attributes]
    have hinit : mkDict ([(t, eEnc)].map
        (fun te => (te.1, (te.2, te.2.create_empty_value))))
        = [(t, (eEnc, eEnc.create_empty_value))] := rfl
    rw [hinit, hchild, except_bind_ok]
    have hun : unwrapValues [(t, (eEnc, st))] = .ok [(t, w)] := by
      unfold unwrapValues
      rw [List.foldlM_cons]
      simp only [hunwrap]
      rw [except_bind_ok, List.foldlM_nil]
      rfl
    rw [hun, except_bind_ok]
    have htv : applyTextValue none (.mk tagn attrs txt children) [(t, w)]
        = .ok [(t, w)] := rfl
    rw [htv, except_bind_ok]
    have hat : applyAttributes [(t, .required aDec)] attrs [(t, w)]
        = .ok [(t, va)] := by
      unfold applyAttributes
      rw [List.foldlM_cons]
      simp only [AttributeEncoding.decode, hattr, hadec]
      rw [except_bind_ok, List.foldlM_nil]
      show Except.ok (setKey [(t, w)] t va) = _
      simp [setKey]
    rw [hat, except_bind_ok]
    have hca : collectArguments [(t, va)] [t, t] = .ok [va, va] := by
      unfold collectArguments
      rw [List.mapM_cons, List.mapM_cons, List.mapM_nil]
      simp only [getKey, if_pos]
      rfl
    rw [hca, except_bind_ok]

/-- Witness for C10: element field "a" and attribute field named "a" on the
same record, document with child <a>X</a> and attribute a="Y"; both
dataclass fields receive "Y". -/
theorem c10_colliding_attribute_element_tags_witness :
    collect_bindings
        [⟨"a", .value none (.required parse_string)⟩,
          ⟨"a_attr", .attribute (some ⟨some "a", .defaultNs⟩)
            (.required (fun v => .ok (.str v)))⟩]
        none "Data"
      = .ok ⟨[("a", .required parse_string)], none,
          [("a", .required (fun v => .ok (.str v)))], ["a", "a"], "Data"⟩
    ∧ record_decode
        ⟨[("a", .required parse_string)], none,
          [("a", .required (fun v => .ok (.str v)))], ["a", "a"], "Data"⟩
        (.mk "r" [("a", "Y")] none [.mk "a" [] (some "X") []])
      = .ok (.obj "Data" [.str "Y", .str "Y"]) :=
  c10_colliding_attribute_element_tags "a" "a_attr" none
    (some ⟨some "a", .defaultNs⟩) none "Data" "a" (.required parse_string)
    (fun v => .ok (.str v)) "r" [("a", "Y")] none [.mk "a" [] (some "X") []]
    "Y" (.str "Y") (.str "X") (.req (some (.str "X")))
    rfl rfl rfl rfl rfl rfl

/-! ## Tagged unions (`_derive_union`, `_get_variant_tag`) -/

/-- Embedding of the `Variant` annotation: a required tag name plus a
namespace configuration. -/
structure VariantConfig where
  name : String
  nsConfig : NsConfig
  deriving Repr, DecidableEq

/-- Embedding of `_get_variant_tag`: `none` when the variant carries no
`Variant` annotation, otherwise the resolved qualified tag. -/
def get_variant_tag (cfg : Option VariantConfig)
    (default_namespace : Option String) : Option String :=
  match cfg with
  | none => none
  | some c =>
    let nsv : Option String :=
      match c.nsConfig with
      | .defaultNs => default_namespace
      | .noNs => none
      | .ns s => some s
    some (resolve_full_tag c.name nsv)

/-- One iteration of the `_derive_union` loop: a variant without a tag
annotation raises; otherwise the tag is assigned into the
`variant_encodings` dict (Python dict assignment: a duplicate tag silently
overwrites the earlier entry). -/
def derive_union_step (dns : Option String) (d : List (String × Encoding))
    (ve : Option VariantConfig × Encoding) :
    Except DecodeErr (List (String × Encoding)) :=
  match get_variant_tag ve.1 dns with
  | none => .error .missingVariant
  | some tag => .ok (setKey d tag ve.2)

/-- Embedding of `_derive_union`: build the tag-to-encoding dict over all
variants (each variant is its annotation plus the encoding `_derive`
produced for its inner type).  The returned dict is the one captured by the
union decode closure. -/
def derive_union (variants : List (Option VariantConfig × Encoding))
    (dns : Option String) : Except DecodeErr (List (String × Encoding)) :=
  variants.foldlM (derive_union_step dns) []

/-- Embedding of the `_decode` closure `_derive_union` returns: a union
node must have exactly one child, whose tag selects the variant. -/
def union_decode (variant_encodings : List (String × Encoding))
    (node : XmlElement) : Except DecodeErr (Option PyVal) :=
  match node.children with
  | [child] =>
    match getKey variant_encodings child.tag with
    | none => .error (.missingValue child.tag)
    | some enc => enc.decode child
  | _ => .error (.duplicateValue node.tag)

theorem find?_append_match {α : Type} (p : α → Bool) (l1 l2 : List α) :
    List.find? p (l1 ++ l2)
      = match List.find? p l1 with
        | some x => some x
        | none => List.find? p l2 := by
  induction l1 with
  | nil => simp
  | cons a l ih =>
    cases hpa : p a with
    | true => simp [List.find?, hpa]
    | false => simp [List.find?, hpa, ih]

theorem derive_union_go :
    ∀ (variants : List (Option VariantConfig × Encoding)) (dns : Option String)
      (d0 : List (String × Encoding)),
      (∀ v ∈ variants, (get_variant_tag v.1 dns).isSome = true) →
      ∃ d, variants.foldlM (derive_union_step dns) d0 = .ok d ∧
        ∀ tg : String, getKey d tg
          = match variants.reverse.find?
              (fun v => get_variant_tag v.1 dns == some tg) with
            | some v => some v.2
            | none => getKey d0 tg := by
  intro variants
  induction variants with
  | nil =>
    intro dns d0 _
    exact ⟨d0, rfl, fun tg => rfl⟩
  | cons v vs ih =>
    intro dns d0 hall
    obtain ⟨t, ht⟩ := Option.isSome_iff_exists.mp
      (hall v (List.mem_cons_self _ _))
    obtain ⟨d, hd, hprop⟩ := ih dns (setKey d0 t v.2)
      (fun u hu => hall u (List.mem_cons_of_mem _ hu))
    refine ⟨d, ?_, ?_⟩
    · rw [List.foldlM_cons]
      unfold derive_union_step
      rw [ht, except_bind_ok]
      exact hd
    · intro tg
      rw [hprop tg]
      rw [List.reverse_cons, find?_append_match]
      cases hfind : vs.reverse.find?
          (fun u => get_variant_tag u.1 dns == some tg) with
      | some u => rfl
      | none =>
        simp only [List.find?_singleton]
        by_cases htg : t = tg
        · subst htg
          simp only [ht, beq_self_eq_true, if_pos]
          rw [getKey_setKey_self]
        · have hbeq : (get_variant_tag v.1 dns == some tg) = false := by
            rw [ht]
            simp [htg]
          rw [hbeq]
          simp only [Bool.false_eq_true, if_false]
          rw [getKey_setKey_ne _ _ _ _ htg]

/-- C2 counterexample: two variants resolving to the same tag "a" do not
make derive raise; `_derive_union` returns successfully, with the second
variant silently overwriting the first in the tag-to-encoding dict. -/
theorem c2_duplicate_variant_tag_counterexample :
    derive_union
        [(some ⟨"a", .defaultNs⟩, .required parse_string),
          (some ⟨"a", .defaultNs⟩, .required parse_int)]
        none
      = .ok [("a", .required parse_int)] := rfl

/-- C2 (amended): duplicate variant tags are not rejected at derive time:
whenever every variant carries a tag annotation, `_derive_union` succeeds,
and each tag maps to the encoding of the last variant resolving to that
tag (Python dict assignment overwrites). -/
theorem c2_duplicate_variant_tag_last_wins :
    ∀ (variants : List (Option VariantConfig × Encoding)) (dns : Option String),
      (∀ v ∈ variants, (get_variant_tag v.1 dns).isSome = true) →
      ∃ d, derive_union variants dns = .ok d ∧
        ∀ tg : String, getKey d tg
          = match variants.reverse.find?
              (fun v => get_variant_tag v.1 dns == some tg) with
            | some v => some v.2
            | none => none := by
  intro variants dns hall
  obtain ⟨d, hd, hprop⟩ := derive_union_go variants dns [] hall
  refine ⟨d, hd, fun tg => ?_⟩
  rw [hprop tg]
  cases variants.reverse.find? (fun v => get_variant_tag v.1 dns == some tg)
  · rfl
  · rfl

/-- Witness for C2 at a concrete union with a duplicated tag "a". -/
theorem c2_duplicate_variant_tag_last_wins_witness :
    ∃ d, derive_union
        [(some ⟨"a", .defaultNs⟩, .required parse_string),
          (some ⟨"a", .defaultNs⟩, .required parse_int)]
        none = .ok d ∧
      ∀ tg : String, getKey d tg
        = match [(some ⟨"a", .defaultNs⟩, .required parse_string),
            (some (VariantConfig.mk "a" .defaultNs), .required parse_int)
            ].reverse.find?
            (fun v => get_variant_tag v.1 none == some tg) with
          | some v => some v.2
          | none => none :=
  c2_duplicate_variant_tag_last_wins
    [(some ⟨"a", .defaultNs⟩, .required parse_string),
      (some ⟨"a", .defaultNs⟩, .required parse_int)]
    none
    (by
      intro v hv
      rcases List.mem_cons.mp hv with rfl | hv2
      · rfl
      · rcases List.mem_cons.mp hv2 with rfl | h3
        · rfl
        · exact absurd h3 (List.not_mem_nil _))

/-! ## Cycle-safe compilation (`_derive` / `_derive_dataclass` cache)

The compile phase is modelled over an explicit heap of encoding objects:
`_derive_dataclass` allocates a stub `RequiredValueEncoding` object, stores
it in `encoding_cache` under the type identity before compiling the fields,
and patches its decode routine in place afterwards.  Object identity
becomes a heap id; the in-place patch becomes `apatch` on the heap, which
never touches the cache. -/

/-- Association-list lookup over any decidable key type. -/
def alookup {κ α : Type} [DecidableEq κ] : List (κ × α) → κ → Option α
  | [], _ => none
  | (k, v) :: rest, key => if k = key then some v else alookup rest key

/-- In-place update of an existing key (used for the heap patch); a missing
key is left alone. -/
def apatch {κ α : Type} [DecidableEq κ] : List (κ × α) → κ → α → List (κ × α)
  | [], _, _ => []
  | (k, v) :: rest, key, a =>
    if k = key then (key, a) :: rest else (k, v) :: apatch rest key a

/-- Shape of a type as seen by `_derive`: a scalar leaf, a dataclass
reference by type identity, or the Optional / list wrappers. -/
inductive FieldType where
  | prim : FieldType
  | recT (t : Nat) : FieldType
  | opt (f : FieldType) : FieldType
  | listOf (f : FieldType) : FieldType
  deriving Repr, DecidableEq

/-- An encoding value as built by `_derive`: scalars, a reference to a
heap-allocated dataclass encoding object (object identity matters), and the
Optional / list wrapper objects. -/
inductive EncObj where
  | prim : EncObj
  | ref (id : Nat) : EncObj
  | opt (inner : EncObj) : EncObj
  | listOf (inner : EncObj) : EncObj
  deriving Repr, DecidableEq

/-- Compile-time state: the `encoding_cache` (type identity to object id),
the heap of dataclass encoding objects (`none` = stub `_none_decoder`,
`some fields` = patched decode plan), and the allocator. -/
structure DeriveState where
  cache : List (FieldType × Nat)
  heap : List (Nat × Option (List EncObj))
  nextId : Nat
  deriving Repr, DecidableEq

/-- The stub allocation at the top of `_derive_dataclass`: create the
placeholder object and insert it into the cache under the type identity
BEFORE the fields are compiled. -/
def insertSt (st : DeriveState) (t : Nat) : DeriveState :=
  { cache := (.recT t, st.nextId) :: st.cache,
    heap := (st.nextId, none) :: st.heap,
    nextId := st.nextId + 1 }

/-- The final `class_encoding.decode = _decode` patch: overwrite the stub
plan in place on the heap; the cache is untouched. -/
def patchSt (st : DeriveState) (id : Nat) (encs : List EncObj) : DeriveState :=
  { st with heap := apatch st.heap id (some encs) }

mutual

/-- Embedding of `_derive` (with `_derive_dataclass` inlined as the `recT`
branch): the cache is consulted first; a dataclass miss allocates the stub,
inserts it into the cache, compiles the fields and patches the stub in
place.  The fuel argument is an artifact of the embedding: Python bounds
the recursion by the cache instead. -/
def deriveF (env : List (Nat × List FieldType)) :
    Nat → FieldType → DeriveState → Except DecodeErr (EncObj × DeriveState)
  | 0, _, _ => .error .fuelOut
  | fuel + 1, ft, st =>
    match alookup st.cache ft with
    | some id => .ok (.ref id, st)
    | none =>
      match ft with
      | .prim => .ok (.prim, st)
      | .opt f =>
        match deriveF env fuel f st with
        | .error e => .error e
        | .ok (enc, st2) => .ok (.opt enc, st2)
      | .listOf f =>
        match deriveF env fuel f st with
        | .error e => .error e
        | .ok (enc, st2) => .ok (.listOf enc, st2)
      | .recT t =>
        match alookup env t with
        | none => .error (.unknownType t)
        | some fts =>
          match deriveFields env fuel fts (insertSt st t) with
          | .error e => .error e
          | .ok (encs, st2) => .ok (.ref st.nextId, patchSt st2 st.nextId encs)
termination_by structural fuel _ _ => fuel

/-- The field loop of `_derive_dataclass`: compile every field type in
declaration order, threading the cache state. -/
def deriveFields (env : List (Nat × List FieldType)) :
    Nat → List FieldType → DeriveState →
    Except DecodeErr (List EncObj × DeriveState)
  | 0, _, _ => .error .fuelOut
  | _ + 1, [], st => .ok ([], st)
  | fuel + 1, f :: fs, st =>
    match deriveF env fuel f st with
    | .error e => .error e
    | .ok (enc, st2) =>
      match deriveFields env fuel fs st2 with
      | .error e => .error e
      | .ok (encs, st3) => .ok (enc :: encs, st3)
termination_by structural fuel _ _ => fuel

end

/-- Structural size of a field type (bound for the non-record descent). -/
def sizeF : FieldType → Nat
  | .prim => 1
  | .recT _ => 1
  | .opt f => sizeF f + 1
  | .listOf f => sizeF f + 1

/-- Structural size of a field list. -/
def sizeL : List FieldType → Nat
  | [] => 1
  | f :: fs => sizeF f + sizeL fs + 1

/-- Largest field-list size over the environment. -/
def maxSizeL (env : List (Nat × List FieldType)) : Nat :=
  env.foldr (fun p m => max (sizeL p.2) m) 0

/-- Fuel consumed per newly compiled record type. -/
def stepBound (env : List (Nat × List FieldType)) : Nat :=
  maxSizeL env + 1

/-- Sufficient fuel for compiling any type of a closed environment. -/
def fuelBound (env : List (Nat × List FieldType)) : Nat :=
  stepBound env * (env.length + 1) + 1

/-- All dataclass references of a field type resolve in the environment. -/
def refsClosed (env : List (Nat × List FieldType)) : FieldType → Bool
  | .prim => true
  | .recT t => (alookup env t).isSome
  | .opt f => refsClosed env f
  | .listOf f => refsClosed env f

/-- Every field of every record of the environment resolves (recursive and
mutually recursive graphs included). -/
def envClosed (env : List (Nat × List FieldType)) : Prop :=
  ∀ p ∈ env, ∀ f ∈ p.2, refsClosed env f = true

/-- Number of environment types not yet in the cache. -/
def uncached (env : List (Nat × List FieldType)) (st : DeriveState) : Nat :=
  ((env.map Prod.fst).filter
    (fun t => (alookup st.cache (.recT t)).isNone)).length

/-- Cache entries are never overwritten or dropped: every existing mapping
survives into the later state. -/
def cacheExtends (st st2 : DeriveState) : Prop :=
  ∀ (ft : FieldType) (id : Nat),
    alookup st.cache ft = some id → alookup st2.cache ft = some id

/-- Heap keys (allocated encoding objects) persist. -/
def heapPersists (st st2 : DeriveState) : Prop :=
  ∀ id : Nat, (alookup st.heap id).isSome = true →
    (alookup st2.heap id).isSome = true

/-- The fresh compile state `derive` starts from. -/
def emptyDeriveState : DeriveState := ⟨[], [], 0⟩

theorem alookup_cons_self {κ α : Type} [DecidableEq κ] (l : List (κ × α))
    (k : κ) (v : α) : alookup ((k, v) :: l) k = some v := by
  simp [alookup]

theorem alookup_cons_ne {κ α : Type} [DecidableEq κ] (l : List (κ × α))
    (k k2 : κ) (v : α) (h : k ≠ k2) :
    alookup ((k, v) :: l) k2 = alookup l k2 := by
  simp [alookup, h]

theorem alookup_mem_keys {κ α : Type} [DecidableEq κ] :
    ∀ (l : List (κ × α)) (k : κ) (v : α),
      alookup l k = some v → k ∈ l.map Prod.fst := by
  intro l
  induction l with
  | nil => intro k v h; cases h
  | cons p rest ih =>
    intro k v h
    obtain ⟨pk, pv⟩ := p
    by_cases hk : pk = k
    · subst hk
      simp
    · rw [alookup_cons_ne _ _ _ _ hk] at h
      simp only [List.map_cons, List.mem_cons]
      exact Or.inr (ih k v h)

theorem alookup_mem_pair {κ α : Type} [DecidableEq κ] :
    ∀ (l : List (κ × α)) (k : κ) (v : α),
      alookup l k = some v → (k, v) ∈ l := by
  intro l
  induction l with
  | nil => intro k v h; cases h
  | cons p rest ih =>
    intro k v h
    obtain ⟨pk, pv⟩ := p
    by_cases hk : pk = k
    · subst hk
      rw [alookup_cons_self] at h
      cases h
      exact List.mem_cons_self _ _
    · rw [alookup_cons_ne _ _ _ _ hk] at h
      exact List.mem_cons_of_mem _ (ih k v h)

theorem apatch_lookup_self {κ α : Type} [DecidableEq κ] :
    ∀ (l : List (κ × α)) (k : κ) (a : α),
      (alookup l k).isSome = true → alookup (apatch l k a) k = some a := by
  intro l
  induction l with
  | nil => intro k a h; cases h
  | cons p rest ih =>
    intro k a h
    obtain ⟨pk, pv⟩ := p
    by_cases hk : pk = k
    · subst hk
      simp [apatch, alookup]
    · rw [alookup_cons_ne _ _ _ _ hk] at h
      simp only [apatch, if_neg hk]
      rw [alookup_cons_ne _ _ _ _ hk]
      exact ih k a h

theorem apatch_isSome {κ α : Type} [DecidableEq κ] :
    ∀ (l : List (κ × α)) (k : κ) (a : α) (id : κ),
      (alookup l id).isSome = true →
      (alookup (apatch l k a) id).isSome = true := by
  intro l
  induction l with
  | nil => intro k a id h; cases h
  | cons p rest ih =>
    intro k a id h
    obtain ⟨pk, pv⟩ := p
    by_cases hk : pk = k
    · subst hk
      rw [show apatch ((pk, pv) :: rest) pk a = (pk, a) :: rest from by
        simp [apatch]]
      by_cases hid : pk = id
      · subst hid
        rw [alookup_cons_self]
        rfl
      · rw [alookup_cons_ne _ _ _ _ hid]
        rw [alookup_cons_ne _ _ _ _ hid] at h
        exact h
    · rw [show apatch ((pk, pv) :: rest) k a = (pk, pv) :: apatch rest k a from by
        simp [apatch, hk]]
      by_cases hid : pk = id
      · subst hid
        rw [alookup_cons_self]
        rfl
      · rw [alookup_cons_ne _ _ _ _ hid]
        rw [alookup_cons_ne _ _ _ _ hid] at h
        exact ih k a id h

theorem filter_length_mono {α : Type} (p q : α → Bool) :
    ∀ l : List α, (∀ x ∈ l, p x = true → q x = true) →
      (l.filter p).length ≤ (l.filter q).length := by
  intro l
  induction l with
  | nil => intro _; simp
  | cons x xs ih =>
    intro h
    have hx := h x (List.mem_cons_self _ _)
    have hxs := ih (fun y hy => h y (List.mem_cons_of_mem _ hy))
    cases hp : p x with
    | true =>
      rw [List.filter_cons_of_pos hp, List.filter_cons_of_pos (hx hp)]
      simpa using hxs
    | false =>
      rw [List.filter_cons_of_neg (by simp [hp])]
      cases hq : q x with
      | true =>
        rw [List.filter_cons_of_pos hq]
        exact Nat.le_succ_of_le hxs
      | false =>
        rw [List.filter_cons_of_neg (by simp [hq])]
        exact hxs

theorem cacheExtends_refl (st : DeriveState) : cacheExtends st st :=
  fun _ _ h => h

theorem cacheExtends_trans {a b c : DeriveState}
    (h1 : cacheExtends a b) (h2 : cacheExtends b c) : cacheExtends a c :=
  fun ft id h => h2 ft id (h1 ft id h)

theorem heapPersists_refl (st : DeriveState) : heapPersists st st :=
  fun _ h => h

theorem heapPersists_trans {a b c : DeriveState}
    (h1 : heapPersists a b) (h2 : heapPersists b c) : heapPersists a c :=
  fun id h => h2 id (h1 id h)

theorem cacheExtends_insertSt (st : DeriveState) (t : Nat)
    (h : alookup st.cache (.recT t) = none) :
    cacheExtends st (insertSt st t) := by
  intro ft id hft
  show alookup ((FieldType.recT t, st.nextId) :: st.cache) ft = some id
  by_cases hf : FieldType.recT t = ft
  · rw [← hf] at hft
    rw [hft] at h
    cases h
  · rw [alookup_cons_ne _ _ _ _ hf]
    exact hft

theorem heapPersists_insertSt (st : DeriveState) (t : Nat) :
    heapPersists st (insertSt st t) := by
  intro id hid
  show (alookup ((st.nextId, none) :: st.heap) id).isSome = true
  by_cases hf : st.nextId = id
  · subst hf
    rw [alookup_cons_self]
    rfl
  · rw [alookup_cons_ne _ _ _ _ hf]
    exact hid

theorem cacheExtends_patchSt (st : DeriveState) (id : Nat)
    (encs : List EncObj) : cacheExtends st (patchSt st id encs) :=
  fun _ _ h => h

theorem heapPersists_patchSt (st : DeriveState) (id : Nat)
    (encs : List EncObj) : heapPersists st (patchSt st id encs) := by
  intro i hi
  exact apatch_isSome _ _ _ _ hi

theorem insert_pred_imp (cache : List (FieldType × Nat)) (t nid s : Nat) :
    (alookup ((FieldType.recT t, nid) :: cache) (FieldType.recT s)).isNone = true →
    (alookup cache (FieldType.recT s)).isNone = true := by
  intro h
  by_cases hs : FieldType.recT t = FieldType.recT s
  · rw [← hs, alookup_cons_self] at h
    cases h
  · rw [alookup_cons_ne _ _ _ _ hs] at h
    exact h

theorem uncached_mono {env : List (Nat × List FieldType)} {st st2 : DeriveState}
    (h : cacheExtends st st2) : uncached env st2 ≤ uncached env st := by
  unfold uncached
  apply filter_length_mono
  intro t _ hp
  cases hst : alookup st.cache (.recT t) with
  | none => rfl
  | some id =>
    rw [h _ _ hst] at hp
    cases hp

theorem uncached_insert {env : List (Nat × List FieldType)} {st : DeriveState}
    {t : Nat} {fts : List FieldType}
    (hmiss : alookup st.cache (.recT t) = none)
    (henv : alookup env t = some fts) :
    uncached env (insertSt st t) + 1 ≤ uncached env st := by
  have hmem : t ∈ env.map Prod.fst := alookup_mem_keys env t fts henv
  unfold uncached
  show ((env.map Prod.fst).filter (fun s =>
      (alookup ((FieldType.recT t, st.nextId) :: st.cache) (.recT s)).isNone)).length + 1
    ≤ ((env.map Prod.fst).filter (fun s =>
      (alookup st.cache (.recT s)).isNone)).length
  generalize env.map Prod.fst = keys at hmem ⊢
  induction keys with
  | nil => cases hmem
  | cons k ks ih =>
    by_cases hk : k = t
    · subst hk
      have hnew : (alookup ((FieldType.recT k, st.nextId) :: st.cache)
          (FieldType.recT k)).isNone = false := by
        rw [alookup_cons_self]
        rfl
      have hold : (alookup st.cache (FieldType.recT k)).isNone = true := by
        rw [hmiss]
        rfl
      rw [List.filter_cons, List.filter_cons]
      simp only [hnew, hold, Bool.false_eq_true, if_false, if_true]
      have := filter_length_mono
        (fun s => (alookup ((FieldType.recT k, st.nextId) :: st.cache)
          (FieldType.recT s)).isNone)
        (fun s => (alookup st.cache (FieldType.recT s)).isNone)
        ks (fun s _ hp => insert_pred_imp st.cache k st.nextId s hp)
      simp only [List.length_cons]
      omega
    · have hmem2 : t ∈ ks := by
        rcases List.mem_cons.mp hmem with h1 | h1
        · exact absurd h1.symm hk
        · exact h1
      have heq : (alookup ((FieldType.recT t, st.nextId) :: st.cache)
          (FieldType.recT k)).isNone
          = (alookup st.cache (FieldType.recT k)).isNone := by
        rw [alookup_cons_ne]
        intro hcontra
        exact hk (by cases hcontra; rfl)
      rw [List.filter_cons, List.filter_cons]
      cases hv : (alookup st.cache (FieldType.recT k)).isNone with
      | true =>
        simp only [heq, hv, if_true]
        simp only [List.length_cons]
        have := ih hmem2
        omega
      | false =>
        simp only [heq, hv, Bool.false_eq_true, if_false]
        exact ih hmem2

theorem sizeF_pos (ft : FieldType) : 1 ≤ sizeF ft := by
  cases ft <;> simp [sizeF]

theorem sizeL_pos (fts : List FieldType) : 1 ≤ sizeL fts := by
  cases fts <;> simp [sizeL]

theorem sizeL_le_max {env : List (Nat × List FieldType)} {t : Nat}
    {fts : List FieldType} (h : (t, fts) ∈ env) :
    sizeL fts ≤ maxSizeL env := by
  induction env with
  | nil => cases h
  | cons p rest ih =>
    rcases List.mem_cons.mp h with h1 | h1
    · subst h1
      exact Nat.le_max_left _ _
    · exact Nat.le_trans (ih h1) (Nat.le_max_right _ _)

theorem uncached_le_length (env : List (Nat × List FieldType))
    (st : DeriveState) : uncached env st ≤ env.length := by
  unfold uncached
  calc ((env.map Prod.fst).filter _).length
      ≤ (env.map Prod.fst).length := List.length_filter_le _ _
    _ = env.length := List.length_map _ _

theorem deriveF_zero (env : List (Nat × List FieldType)) (ft : FieldType)
    (st : DeriveState) : deriveF env 0 ft st = .error .fuelOut := rfl

theorem deriveFields_zero (env : List (Nat × List FieldType))
    (fts : List FieldType) (st : DeriveState) :
    deriveFields env 0 fts st = .error .fuelOut := rfl

theorem deriveF_succ_eq (env : List (Nat × List FieldType)) (fuel : Nat)
    (ft : FieldType) (st : DeriveState) :
    deriveF env (fuel + 1) ft st
      = match alookup st.cache ft with
        | some id => .ok (.ref id, st)
        | none =>
          match ft with
          | .prim => .ok (.prim, st)
          | .opt f =>
            match deriveF env fuel f st with
            | .error e => .error e
            | .ok (enc, st2) => .ok (.opt enc, st2)
          | .listOf f =>
            match deriveF env fuel f st with
            | .error e => .error e
            | .ok (enc, st2) => .ok (.listOf enc, st2)
          | .recT t =>
            match alookup env t with
            | none => .error (.unknownType t)
            | some fts =>
              match deriveFields env fuel fts (insertSt st t) with
              | .error e => .error e
              | .ok (encs, st2) => .ok (.ref st.nextId, patchSt st2 st.nextId encs) := rfl

theorem deriveFields_succ_cons_eq (env : List (Nat × List FieldType))
    (fuel : Nat) (f : FieldType) (fs : List FieldType) (st : DeriveState) :
    deriveFields env (fuel + 1) (f :: fs) st
      = match deriveF env fuel f st with
        | .error e => .error e
        | .ok (enc, st2) =>
          match deriveFields env fuel fs st2 with
          | .error e => .error e
          | .ok (encs, st3) => .ok (enc :: encs, st3) := rfl

theorem deriveF_cached {env : List (Nat × List FieldType)} {fuel : Nat}
    {ft : FieldType} {st : DeriveState} {id : Nat}
    (h : alookup st.cache ft = some id) :
    deriveF env (fuel + 1) ft st = .ok (.ref id, st) := by
  rw [deriveF_succ_eq, h]

theorem deriveF_uncached_prim {env : List (Nat × List FieldType)} {fuel : Nat}
    {st : DeriveState} (h : alookup st.cache .prim = none) :
    deriveF env (fuel + 1) .prim st = .ok (.prim, st) := by
  rw [deriveF_succ_eq, h]

theorem deriveF_uncached_opt {env : List (Nat × List FieldType)} {fuel : Nat}
    {f : FieldType} {st st2 : DeriveState} {enc : EncObj}
    (h : alookup st.cache (.opt f) = none)
    (hf : deriveF env fuel f st = .ok (enc, st2)) :
    deriveF env (fuel + 1) (.opt f) st = .ok (.opt enc, st2) := by
  rw [deriveF_succ_eq, h]
  show ((match deriveF env fuel f st with
    | .error e => .error e
    | .ok (enc2, stx) => .ok (.opt enc2, stx)) :
      Except DecodeErr (EncObj × DeriveState)) = _
  rw [hf]

theorem deriveF_uncached_list {env : List (Nat × List FieldType)} {fuel : Nat}
    {f : FieldType} {st st2 : DeriveState} {enc : EncObj}
    (h : alookup st.cache (.listOf f) = none)
    (hf : deriveF env fuel f st = .ok (enc, st2)) :
    deriveF env (fuel + 1) (.listOf f) st = .ok (.listOf enc, st2) := by
  rw [deriveF_succ_eq, h]
  show ((match deriveF env fuel f st with
    | .error e => .error e
    | .ok (enc2, stx) => .ok (.listOf enc2, stx)) :
      Except DecodeErr (EncObj × DeriveState)) = _
  rw [hf]

theorem deriveF_uncached_rec {env : List (Nat × List FieldType)} {fuel : Nat}
    {t : Nat} {st st2 : DeriveState} {fts : List FieldType} {encs : List EncObj}
    (h : alookup st.cache (.recT t) = none)
    (henv : alookup env t = some fts)
    (hfs : deriveFields env fuel fts (insertSt st t) = .ok (encs, st2)) :
    deriveF env (fuel + 1) (.recT t) st
      = .ok (.ref st.nextId, patchSt st2 st.nextId encs) := by
  rw [deriveF_succ_eq, h]
  show ((match alookup env t with
    | none => .error (.unknownType t)
    | some fts2 =>
      match deriveFields env fuel fts2 (insertSt st t) with
      | .error e => .error e
      | .ok (encs2, stx) => .ok (.ref st.nextId, patchSt stx st.nextId encs2)) :
      Except DecodeErr (EncObj × DeriveState)) = _
  rw [henv]
  show ((match deriveFields env fuel fts (insertSt st t) with
    | .error e => .error e
    | .ok (encs2, stx) => .ok (.ref st.nextId, patchSt stx st.nextId encs2)) :
      Except DecodeErr (EncObj × DeriveState)) = _
  rw [hfs]

theorem deriveFields_nil (env : List (Nat × List FieldType)) (fuel : Nat)
    (st : DeriveState) : deriveFields env (fuel + 1) [] st = .ok ([], st) := rfl

theorem deriveFields_cons_ok {env : List (Nat × List FieldType)} {fuel : Nat}
    {f : FieldType} {fs : List FieldType} {st st2 st3 : DeriveState}
    {enc : EncObj} {encs : List EncObj}
    (hf : deriveF env fuel f st = .ok (enc, st2))
    (hfs : deriveFields env fuel fs st2 = .ok (encs, st3)) :
    deriveFields env (fuel + 1) (f :: fs) st = .ok (enc :: encs, st3) := by
  rw [deriveFields_succ_cons_eq, hf]
  show ((match deriveFields env fuel fs st2 with
    | .error e => .error e
    | .ok (encs2, stx) => .ok (enc :: encs2, stx)) :
      Except DecodeErr (List EncObj × DeriveState)) = _
  rw [hfs]

theorem derive_extends (env : List (Nat × List FieldType)) :
    ∀ fuel : Nat,
      (∀ (ft : FieldType) (st : DeriveState) (enc : EncObj) (st2 : DeriveState),
        deriveF env fuel ft st = .ok (enc, st2) →
        cacheExtends st st2 ∧ heapPersists st st2)
      ∧ (∀ (fts : List FieldType) (st : DeriveState) (encs : List EncObj)
          (st2 : DeriveState),
        deriveFields env fuel fts st = .ok (encs, st2) →
        cacheExtends st st2 ∧ heapPersists st st2) := by
  intro fuel
  induction fuel with
  | zero =>
    constructor
    · intro ft st enc st2 h
      rw [deriveF_zero] at h
      cases h
    · intro fts st encs st2 h
      rw [deriveFields_zero] at h
      cases h
  | succ fuel ih =>
    obtain ⟨ihF, ihL⟩ := ih
    constructor
    · intro ft st enc st2 h
      rw [deriveF_succ_eq] at h
      split at h
      · cases h
        exact ⟨cacheExtends_refl st, heapPersists_refl st⟩
      · rename_i hmiss
        split at h
        · cases h
          exact ⟨cacheExtends_refl st, heapPersists_refl st⟩
        · split at h
          · cases h
          · rename_i enc2 stx heq2
            cases h
            exact ihF _ _ _ _ heq2
        · split at h
          · cases h
          · rename_i enc2 stx heq2
            cases h
            exact ihF _ _ _ _ heq2
        · rename_i t
          split at h
          · cases h
          · rename_i fts2 henv2
            split at h
            · cases h
            · rename_i encs2 stx heq2
              cases h
              have hrec := ihL _ _ _ _ heq2
              refine ⟨cacheExtends_trans (cacheExtends_insertSt st t hmiss)
                (cacheExtends_trans hrec.1 (cacheExtends_patchSt _ _ _)), ?_⟩
              exact heapPersists_trans (heapPersists_insertSt st t)
                (heapPersists_trans hrec.2 (heapPersists_patchSt _ _ _))
    · intro fts st encs st2 h
      cases fts with
      | nil =>
        rw [deriveFields_nil] at h
        cases h
        exact ⟨cacheExtends_refl st, heapPersists_refl st⟩
      | cons f fs =>
        rw [deriveFields_succ_cons_eq] at h
        split at h
        · cases h
        · rename_i enc2 stx heq2
          split at h
          · cases h
          · rename_i encs2 sty heq3
            cases h
            exact ⟨cacheExtends_trans (ihF _ _ _ _ heq2).1 (ihL _ _ _ _ heq3).1,
              heapPersists_trans (ihF _ _ _ _ heq2).2 (ihL _ _ _ _ heq3).2⟩

theorem derive_succeeds (env : List (Nat × List FieldType))
    (hc : envClosed env) :
    ∀ fuel : Nat,
      (∀ (ft : FieldType) (st : DeriveState), refsClosed env ft = true →
        stepBound env * uncached env st + sizeF ft ≤ fuel →
        ∃ enc st2, deriveF env fuel ft st = .ok (enc, st2))
      ∧ (∀ (fts : List FieldType) (st : DeriveState),
        (∀ f ∈ fts, refsClosed env f = true) →
        stepBound env * uncached env st + sizeL fts ≤ fuel →
        ∃ encs st2, deriveFields env fuel fts st = .ok (encs, st2)) := by
  intro fuel
  induction fuel with
  | zero =>
    constructor
    · intro ft st _ hb
      have := sizeF_pos ft
      omega
    · intro fts st _ hb
      have := sizeL_pos fts
      omega
  | succ fuel ih =>
    obtain ⟨ihF, ihL⟩ := ih
    constructor
    · intro ft st hrc hb
      cases hcache : alookup st.cache ft with
      | some id => exact ⟨.ref id, st, deriveF_cached hcache⟩
      | none =>
        cases ft with
        | prim => exact ⟨.prim, st, deriveF_uncached_prim hcache⟩
        | opt f =>
          have hrc2 : refsClosed env f = true := hrc
          have hb2 : stepBound env * uncached env st + sizeF f ≤ fuel := by
            have hsz : sizeF (FieldType.opt f) = sizeF f + 1 := rfl
            omega
          obtain ⟨enc, st2, hf⟩ := ihF f st hrc2 hb2
          exact ⟨.opt enc, st2, deriveF_uncached_opt hcache hf⟩
        | listOf f =>
          have hrc2 : refsClosed env f = true := hrc
          have hb2 : stepBound env * uncached env st + sizeF f ≤ fuel := by
            have hsz : sizeF (FieldType.listOf f) = sizeF f + 1 := rfl
            omega
          obtain ⟨enc, st2, hf⟩ := ihF f st hrc2 hb2
          exact ⟨.listOf enc, st2, deriveF_uncached_list hcache hf⟩
        | recT t =>
          have hsome : (alookup env t).isSome = true := hrc
          obtain ⟨fts, henv⟩ := Option.isSome_iff_exists.mp hsome
          have hpair : (t, fts) ∈ env := alookup_mem_pair _ _ _ henv
          have hflds : ∀ f ∈ fts, refsClosed env f = true :=
            fun f hf => hc (t, fts) hpair f hf
          have hu : uncached env (insertSt st t) + 1 ≤ uncached env st :=
            uncached_insert hcache henv
          have hszmax : sizeL fts ≤ maxSizeL env := sizeL_le_max hpair
          have hb2 : stepBound env * uncached env (insertSt st t) + sizeL fts
              ≤ fuel := by
            have hmul : stepBound env * (uncached env (insertSt st t) + 1)
                ≤ stepBound env * uncached env st :=
              Nat.mul_le_mul_left _ hu
            rw [Nat.mul_succ] at hmul
            have hsb : stepBound env = maxSizeL env + 1 := rfl
            have hszf : sizeF (FieldType.recT t) = 1 := rfl
            omega
          obtain ⟨encs, st2, hfs⟩ := ihL fts (insertSt st t) hflds hb2
          exact ⟨_, _, deriveF_uncached_rec hcache henv hfs⟩
    · intro fts st hall hb
      cases fts with
      | nil => exact ⟨[], st, deriveFields_nil env fuel st⟩
      | cons f fs =>
        have hb1 : stepBound env * uncached env st + sizeF f ≤ fuel := by
          have h1 := sizeL_pos fs
          have hsz : sizeL (f :: fs) = sizeF f + sizeL fs + 1 := rfl
          omega
        obtain ⟨enc, st2, hf⟩ := ihF f st (hall f (List.mem_cons_self _ _)) hb1
        have hext := ((derive_extends env fuel).1 f st enc st2 hf).1
        have hu2 : uncached env st2 ≤ uncached env st := uncached_mono hext
        have hb2 : stepBound env * uncached env st2 + sizeL fs ≤ fuel := by
          have hmul : stepBound env * uncached env st2
              ≤ stepBound env * uncached env st :=
            Nat.mul_le_mul_left _ hu2
          have h1 := sizeF_pos f
          have hsz : sizeL (f :: fs) = sizeF f + sizeL fs + 1 := rfl
          omega
        obtain ⟨encs, st3, hfs⟩ :=
          ihL fs st2 (fun g hg => hall g (List.mem_cons_of_mem _ hg)) hb2
        exact ⟨_, _, deriveFields_cons_ok hf hfs⟩

/-- C6: compilation of any closed (possibly self-referential or mutually
recursive) record-type environment terminates: with the computed fuel,
`deriveF` on a record type from the empty state returns successfully; the
returned encoding is the reference to the very placeholder object id that
was inserted into the cache before the fields were compiled (and is still
mapped there afterwards); the heap slot for that object was patched in
place from the stub to the compiled field plan; a recursive occurrence with
the type already cached returns the cached object and leaves the state
untouched; and an existing cache entry is never changed by any successful
derive step. -/
theorem c6_recursive_compile_terminates_cache_stable :
    ∀ (env : List (Nat × List FieldType)) (t : Nat) (fts : List FieldType),
      envClosed env → alookup env t = some fts →
      (∃ (st2 : DeriveState) (encs : List EncObj),
        deriveF env (fuelBound env) (.recT t) emptyDeriveState
          = .ok (.ref 0, st2)
        ∧ alookup st2.cache (.recT t) = some 0
        ∧ alookup st2.heap 0 = some (some encs)
        ∧ cacheExtends (insertSt emptyDeriveState t) st2)
      ∧ (∀ (fuel : Nat) (st : DeriveState) (id : Nat),
        alookup st.cache (.recT t) = some id →
        deriveF env (fuel + 1) (.recT t) st = .ok (.ref id, st))
      ∧ (∀ (fuel : Nat) (ft : FieldType) (st stx : DeriveState) (enc : EncObj),
        deriveF env fuel ft st = .ok (enc, stx) → cacheExtends st stx) := by
  intro env t fts hc henv
  refine ⟨?_, fun fuel st id hcache => deriveF_cached hcache,
    fun fuel ft st stx enc h => ((derive_extends env fuel).1 ft st enc stx h).1⟩
  have hmiss : alookup emptyDeriveState.cache (.recT t) = none := rfl
  have hpair : (t, fts) ∈ env := alookup_mem_pair _ _ _ henv
  have hflds : ∀ f ∈ fts, refsClosed env f = true :=
    fun f hf => hc (t, fts) hpair f hf
  have hu1 : uncached env (insertSt emptyDeriveState t) ≤ env.length :=
    uncached_le_length env _
  have hszmax : sizeL fts ≤ maxSizeL env := sizeL_le_max hpair
  have hb : stepBound env * uncached env (insertSt emptyDeriveState t)
      + sizeL fts ≤ stepBound env * (env.length + 1) := by
    have hmul : stepBound env * uncached env (insertSt emptyDeriveState t)
        ≤ stepBound env * env.length :=
      Nat.mul_le_mul_left _ hu1
    have hmul2 : stepBound env * (env.length + 1)
        = stepBound env * env.length + stepBound env := Nat.mul_succ _ _
    have hsb : stepBound env = maxSizeL env + 1 := rfl
    omega
  obtain ⟨encs, st2, hfs⟩ :=
    (derive_succeeds env hc (stepBound env * (env.length + 1))).2
      fts (insertSt emptyDeriveState t) hflds hb
  have hrun := deriveF_uncached_rec hmiss henv hfs
  have hext2 := (derive_extends env (stepBound env * (env.length + 1))).2
    fts (insertSt emptyDeriveState t) encs st2 hfs
  refine ⟨patchSt st2 0 encs, encs, ?_, ?_, ?_, ?_⟩
  · rw [show fuelBound env = stepBound env * (env.length + 1) + 1 from rfl]
    exact hrun
  · have hls : alookup (insertSt emptyDeriveState t).cache (.recT t)
        = some 0 := by
      show alookup [(FieldType.recT t, 0)] (.recT t) = some 0
      exact alookup_cons_self _ _ _
    exact hext2.1 _ _ hls
  · have hh1 : (alookup (insertSt emptyDeriveState t).heap 0).isSome = true := rfl
    exact apatch_lookup_self _ _ _ (hext2.2 0 hh1)
  · exact cacheExtends_trans hext2.1 (cacheExtends_patchSt _ _ _)

/-- Witness for C6 on the self-referential environment of a single record
type 0 whose only field is an Optional reference to itself (the
`Group{group: optional Group}` shape from the spec). -/
theorem c6_recursive_compile_terminates_cache_stable_witness :
    envClosed [(0, [FieldType.opt (.recT 0)])]
    ∧ ((∃ (st2 : DeriveState) (encs : List EncObj),
        deriveF [(0, [FieldType.opt (.recT 0)])]
          (fuelBound [(0, [FieldType.opt (.recT 0)])]) (.recT 0)
          emptyDeriveState = .ok (.ref 0, st2)
        ∧ alookup st2.cache (.recT 0) = some 0
        ∧ alookup st2.heap 0 = some (some encs)
        ∧ cacheExtends (insertSt emptyDeriveState 0) st2)
      ∧ (∀ (fuel : Nat) (st : DeriveState) (id : Nat),
        alookup st.cache (.recT 0) = some id →
        deriveF [(0, [FieldType.opt (.recT 0)])] (fuel + 1) (.recT 0) st
          = .ok (.ref id, st))
      ∧ (∀ (fuel : Nat) (ft : FieldType) (st stx : DeriveState) (enc : EncObj),
        deriveF [(0, [FieldType.opt (.recT 0)])] fuel ft st = .ok (enc, stx) →
        cacheExtends st stx)) :=
  have hc : envClosed [(0, [FieldType.opt (.recT 0)])] := by
    intro p hp f hf
    rcases List.mem_cons.mp hp with rfl | hp2
    · rcases List.mem_cons.mp hf with rfl | hf2
      · rfl
      · exact absurd hf2 (List.not_mem_nil _)
    · exact absurd hp2 (List.not_mem_nil _)
  ⟨hc, c6_recursive_compile_terminates_cache_stable
    [(0, [FieldType.opt (.recT 0)])] 0 [FieldType.opt (.recT 0)] hc rfl⟩

/-! ## Lexical scanner (src/xmlstruct/tokenizer.py)

The Python `Stream` stores the DECODED string in `_data` but sets
`_end = len(data)` from the RAW constructor argument: the character count
for `str` input, the byte count for `bytes`/`memoryview` input.  We embed
`_data` as `List Char` and `_end` as an explicit `endPos` parameter.
Python string indexing raises `IndexError` at or past the end of the
decoded string (`pyIndexTok`); the `while` loops of the scanner are given
fuel (an artifact of the embedding; running out of fuel is an error, never
a normal return). -/

inductive TokErr where
  | indexError
  | xml (msg : String)
  | notImplemented
  | fuelOut
  deriving Repr, DecidableEq

/-- Events produced by the tokenizer (tokenizer.py dataclasses). -/
inductive XmlEvent where
  | startOpenTag (pfx : Option String) (tag : String) : XmlEvent
  | attribute (pfx : Option String) (tag : String) (value : String) : XmlEvent
  | finishOpenTag (empty : Bool) : XmlEvent
  | text (content : String) : XmlEvent
  | closeTag (pfx : Option String) (tag : String) : XmlEvent
  deriving Repr, DecidableEq

/-- Python string indexing `self._data[i]`: IndexError past the end. -/
def pyIndexTok (data : List Char) (i : Nat) : Except TokErr Char :=
  match data.get? i with
  | some c => .ok c
  | none => .error .indexError

/-- Python slicing `self._data[i:j]` (clamping, never raising). -/
def pySlice (data : List Char) (i j : Nat) : String :=
  String.mk ((data.drop i).take (j - i))

/-- The scanner whitespace set. -/
def TOK_WHITESPACE : List Char := [' ', '\r', '\n', '\t']

/-- The single decoded character of the UTF-8 byte-order mark. -/
def UTF8_BOM : String := "\uFEFF"

/-- Embedding of `Stream.starts_with` (a slice comparison, never raising). -/
def tok_starts_with (data : List Char) (pos : Nat) (pat : String) : Bool :=
  pySlice data pos (pos + pat.length) == pat

/-- Embedding of `Stream.starts_with_space` (unchecked index). -/
def starts_with_space (data : List Char) (pos : Nat) : Except TokErr Bool := do
  let c ← pyIndexTok data pos
  .ok (TOK_WHITESPACE.contains c)

/-- Embedding of `Stream.skip_spaces`: `while position != end` advance over
whitespace; each index can raise past the decoded string. -/
def skip_spaces (data : List Char) (endPos : Nat) : Nat → Nat → Except TokErr Nat
  | 0, _ => .error .fuelOut
  | fuel + 1, pos =>
    if pos = endPos then .ok pos
    else
      match data.get? pos with
      | none => .error .indexError
      | some c =>
        if TOK_WHITESPACE.contains c then skip_spaces data endPos fuel (pos + 1)
        else .ok pos

/-- Embedding of `Stream.consume_char` (the expected-character check). -/
def consume_char (data : List Char) (expected : Char) (pos : Nat) :
    Except TokErr Nat := do
  let c ← pyIndexTok data pos
  if c = expected then .ok (pos + 1)
  else .error (.xml "Expected char")

/-- Embedding of `Stream.consume_quote`. -/
def consume_quote (data : List Char) (pos : Nat) :
    Except TokErr (Char × Nat) := do
  let c ← pyIndexTok data pos
  if c = Char.ofNat 39 || c = Char.ofNat 34 then .ok (c, pos + 1)
  else .error (.xml "Expected quote")

/-- Embedding of `Stream.consume_str` (a slice comparison then a jump). -/
def consume_str (data : List Char) (expected : String) (pos : Nat) :
    Except TokErr Nat :=
  if pySlice data pos (pos + expected.length) = expected then
    .ok (pos + expected.length)
  else .error (.xml "Expected fixed string")

/-- Embedding of `Stream.consume_declaration_spaces`. -/
def consume_declaration_spaces (data : List Char) (endPos fuel pos : Nat) :
    Except TokErr Nat := do
  let c ← pyIndexTok data pos
  if TOK_WHITESPACE.contains c then skip_spaces data endPos fuel pos
  else if tok_starts_with data pos "?>" then .ok pos
  else .error (.xml "Expected at least one whitespace character")

/-- The loop of `Stream.consume_until`: advance until a stop character;
the index is unchecked, so running past the decoded string raises. -/
def consume_until_end (data : List Char) (stops : List Char) :
    Nat → Nat → Except TokErr Nat
  | 0, _ => .error .fuelOut
  | fuel + 1, pos => do
    let c ← pyIndexTok data pos
    if stops.contains c then .ok pos
    else consume_until_end data stops fuel (pos + 1)

/-- Embedding of `Stream.consume_until`. -/
def consume_until (data : List Char) (stops : List Char) (fuel pos : Nat) :
    Except TokErr (String × Nat) := do
  let e ← consume_until_end data stops fuel pos
  .ok (pySlice data pos e, e)

/-- The name-start character class of the `XML_NAME_START_REGEXP`
character ranges. -/
def isNameStartChar (c : Char) : Bool :=
  c = ':' || ('A' ≤ c && c ≤ 'Z') || c = '_' || ('a' ≤ c && c ≤ 'z')
  || (0xC0 ≤ c.val && c.val ≤ 0xD6) || (0xD8 ≤ c.val && c.val ≤ 0xF6)
  || (0xF8 ≤ c.val && c.val ≤ 0x2FF) || (0x370 ≤ c.val && c.val ≤ 0x37D)
  || (0x37F ≤ c.val && c.val ≤ 0x1FFF) || (0x200C ≤ c.val && c.val ≤ 0x200D)
  || (0x2070 ≤ c.val && c.val ≤ 0x218F) || (0x2C00 ≤ c.val && c.val ≤ 0x2FEF)
  || (0x3001 ≤ c.val && c.val ≤ 0xD7FF) || (0xF900 ≤ c.val && c.val ≤ 0xFDCF)
  || (0xFDF0 ≤ c.val && c.val ≤ 0xFFFD) || (0x10000 ≤ c.val && c.val ≤ 0xEFFFF)

/-- The name character class of the `XML_NAME_REGEXP` character ranges. -/
def isNameChar (c : Char) : Bool :=
  isNameStartChar c || c = '-' || c = '.' || ('0' ≤ c && c ≤ '9')
  || c.val = 0xB7 || (0x300 ≤ c.val && c.val ≤ 0x36F)
  || (0x203F ≤ c.val && c.val ≤ 0x2040)

/-- The scan loop of `Stream.consume_qname`: records the position of the
first colon, errors on a second one, advances over name characters. -/
def consume_qname_loop (data : List Char) (endPos : Nat) :
    Nat → Nat → Option Nat → Except TokErr (Nat × Option Nat)
  | 0, _, _ => .error .fuelOut
  | fuel + 1, pos, split =>
    if pos = endPos then .ok (pos, split)
    else do
      let c ← pyIndexTok data pos
      if c = ':' then
        match split with
        | none => consume_qname_loop data endPos fuel (pos + 1) (some pos)
        | some _ => .error (.xml "multiple colon")
      else if isNameChar c then consume_qname_loop data endPos fuel (pos + 1) split
      else .ok (pos, split)

/-- Embedding of `Stream.consume_qname`: scan, then validate the prefix
start character (`prefix[0]` raises IndexError when the prefix is empty),
a non-empty local name, and the local start character. -/
def consume_qname (data : List Char) (endPos fuel start : Nat) :
    Except TokErr (Option String × String × Nat) := do
  let ps ← consume_qname_loop data endPos fuel start none
  match ps.2 with
  | none =>
    match (pySlice data start ps.1).data with
    | [] => .error (.xml "Local name must not be empty")
    | c0 :: _ =>
      if isNameStartChar c0 then .ok (none, pySlice data start ps.1, ps.1)
      else .error (.xml "Invalid starting string in local")
  | some sp =>
    match (pySlice data start sp).data with
    | [] => .error .indexError
    | p0 :: _ =>
      if !isNameStartChar p0 then .error (.xml "Invalid starting string in prefix")
      else
        match (pySlice data (sp + 1) ps.1).data with
        | [] => .error (.xml "Local name must not be empty")
        | c0 :: _ =>
          if isNameStartChar c0 then
            .ok (some (pySlice data start sp), pySlice data (sp + 1) ps.1, ps.1)
          else .error (.xml "Invalid starting string in local")

/-- Embedding of `Stream.current_char`: `None` at or past `_end`, otherwise
an (unchecked against the decoded length) index. -/
def current_char (data : List Char) (endPos pos : Nat) :
    Except TokErr (Option Char) :=
  if pos ≥ endPos then .ok none
  else (pyIndexTok data pos).map some

/-- Embedding of `Stream.next_char`. -/
def next_char (data : List Char) (endPos pos : Nat) :
    Except TokErr (Option Char) :=
  if pos + 1 ≥ endPos then .ok none
  else (pyIndexTok data (pos + 1)).map some

/-- Embedding of `parse_attribute`: qualified name, `=`, quoted value
terminated by the same quote or an embedded `<` (the latter making the
final `consume_char` fail). -/
def parse_attribute (data : List Char) (endPos fuel pos : Nat) :
    Except TokErr (Option String × String × String × Nat) := do
  let (pfx, lcl, pos) ← consume_qname data endPos fuel pos
  let pos ← consume_char data '=' pos
  let (q, pos) ← consume_quote data pos
  let (value, pos) ← consume_until data [q, '<'] fuel pos
  let pos ← consume_char data q pos
  .ok (pfx, lcl, value, pos)

/-- Python `sub in text` (substring containment). -/
def containsSub (needle : List Char) : List Char → Bool
  | [] => needle.isPrefixOf []
  | c :: rest => needle.isPrefixOf (c :: rest) || containsSub needle rest

/-- Embedding of `parse_text`: a raw run up to the next `<`; the literal
check rejects the three-character sequence `||>` (see the comment in the
source citing the XML end-of-CDATA rule). -/
def parse_text (data : List Char) (fuel pos : Nat) :
    Except TokErr (XmlEvent × Nat) := do
  let (txt, pos) ← consume_until data ['<'] fuel pos
  if containsSub "||>".data txt.data then
    .error (.xml "Got unexpected marker in text data")
  else .ok (.text txt, pos)

/-- Embedding of `parse_close_element`. -/
def parse_close_element (data : List Char) (endPos fuel pos : Nat) :
    Except TokErr (XmlEvent × Nat) := do
  let (pfx, tagn, pos) ← consume_qname data endPos fuel (pos + 2)
  let pos ← skip_spaces data endPos fuel pos
  let pos ← consume_char data '>' pos
  .ok (.closeTag pfx tagn, pos)

/-- Embedding of `parse_misc`: the loop body runs at most once because
`parse_comment` always raises `NotImplementedError`. -/
def parse_misc (data : List Char) (endPos fuel pos : Nat) :
    Except TokErr Nat :=
  if pos ≥ endPos then .ok pos
  else do
    let pos ← skip_spaces data endPos fuel pos
    if tok_starts_with data pos "<!--" then .error .notImplemented
    else if tok_starts_with data pos "<?" then
      .error (.xml "Processing instructions not supported")
    else .ok pos

/-- Embedding of `_parse_declaration` (entered after `<?xml ` matched). -/
def parse_declaration (data : List Char) (endPos fuel pos : Nat) :
    Except TokErr Nat := do
  let pos ← skip_spaces data endPos fuel (pos + 6)
  if ¬ tok_starts_with data pos "version" then
    .error (.xml "Missing version attribute in xml declaration")
  else do
    let (_, _, _, pos) ← parse_attribute data endPos fuel pos
    let pos ← consume_declaration_spaces data endPos fuel pos
    let pos ← (if tok_starts_with data pos "encoding" then do
        let (_, _, _, p) ← parse_attribute data endPos fuel pos
        consume_declaration_spaces data endPos fuel p
      else .ok pos)
    let pos ← (if tok_starts_with data pos "standalone" then do
        let (_, _, _, p) ← parse_attribute data endPos fuel pos
        .ok p
      else .ok pos)
    let pos ← skip_spaces data endPos fuel pos
    consume_str data "?>" pos

mutual

/-- Embedding of `parse_element`: `<`, qualified name, then the attribute
loop until `/>` or `>`. -/
def parse_element (data : List Char) (endPos : Nat) :
    Nat → Nat → Except TokErr (List XmlEvent × Nat)
  | 0, _ => .error .fuelOut
  | fuel + 1, pos => do
    let (pfx, local_name, pos) ← consume_qname data endPos fuel (pos + 1)
    let (evs, pos) ← element_loop data endPos fuel pos
    .ok (.startOpenTag pfx local_name :: evs, pos)
termination_by structural fuel _ => fuel

/-- The `while not at_end` attribute loop of `parse_element`; falling off
the loop end returns without a `FinishOpenTag`. -/
def element_loop (data : List Char) (endPos : Nat) :
    Nat → Nat → Except TokErr (List XmlEvent × Nat)
  | 0, _ => .error .fuelOut
  | fuel + 1, pos =>
    if pos ≥ endPos then .ok ([], pos)
    else do
      let has_space ← starts_with_space data pos
      let pos ← skip_spaces data endPos fuel pos
      let c ← current_char data endPos pos
      if c = some '/' then do
        let pos ← consume_char data '>' (pos + 1)
        .ok ([.finishOpenTag true], pos)
      else if c = some '>' then do
        let (evs, pos) ← parse_content data endPos fuel (pos + 1)
        .ok (.finishOpenTag false :: evs, pos)
      else
        if !has_space then .error (.xml "Expected whitespace")
        else do
          let (p, n, v, pos) ← parse_attribute data endPos fuel pos
          let (evs, pos) ← element_loop data endPos fuel pos
          .ok (.attribute p n v :: evs, pos)
termination_by structural fuel _ => fuel

/-- Embedding of `parse_content`: text runs and child elements until the
matching close tag (comments raise `NotImplementedError`, processing
instructions are rejected); falling off the loop end at `at_end` returns
without a close tag. -/
def parse_content (data : List Char) (endPos : Nat) :
    Nat → Nat → Except TokErr (List XmlEvent × Nat)
  | 0, _ => .error .fuelOut
  | fuel + 1, pos =>
    if pos ≥ endPos then .ok ([], pos)
    else do
      let c ← current_char data endPos pos
      if c = some '<' then do
        let n ← next_char data endPos pos
        if n = some '!' then .error .notImplemented
        else if n = some '?' then .error (.xml "Processing instructions not supported")
        else if n = some '/' then do
          let (ev, pos) ← parse_close_element data endPos fuel pos
          .ok ([ev], pos)
        else do
          let (evs, pos) ← parse_element data endPos fuel pos
          let (evs2, pos) ← parse_content data endPos fuel pos
          .ok (evs ++ evs2, pos)
      else do
        let (ev, pos) ← parse_text data fuel pos
        let (evs2, pos) ← parse_content data endPos fuel pos
        .ok (ev :: evs2, pos)
termination_by structural fuel _ => fuel

end

/-- The start position after the byte-order-mark check of `tokenizer.parse`:
a three-position skip when the decoded data starts with the mark. -/
def bomSkip (data : List Char) : Nat :=
  if tok_starts_with data 0 UTF8_BOM then 3 else 0

/-- Embedding of top-level `tokenizer.parse` over the decoded characters
`data` and the Stream `_end` value `endPos`. -/
def tok_parse (data : List Char) (endPos fuel : Nat) :
    Except TokErr (List XmlEvent) := do
  let pos ← (if tok_starts_with data (bomSkip data) "<?xml " then
      parse_declaration data endPos fuel (bomSkip data)
    else .ok (bomSkip data))
  let pos ← parse_misc data endPos fuel pos
  let pos ← skip_spaces data endPos fuel pos
  let c ← current_char data endPos pos
  let (events, pos) ← (if c = some '<' then parse_element data endPos fuel pos
    else .ok ([], pos))
  let pos ← parse_misc data endPos fuel pos
  if ¬ pos ≥ endPos then .error (.xml "Expected EOF")
  else .ok events

/-- The byte length of the UTF-8 encoding of a string: `len(data)` in
`Stream.__init__` for `bytes` and `memoryview` input. -/
def byteLength (s : String) : Nat :=
  s.data.foldl (fun n c => n + c.utf8Size) 0

/-- Embedding of `tokenizer.parse` on a `str` input: `_end` is the
character count. -/
def tok_parse_str (s : String) (fuel : Nat) : Except TokErr (List XmlEvent) :=
  tok_parse s.data s.length fuel

/-- Embedding of `tokenizer.parse` on `bytes`/`memoryview` input holding
the UTF-8 encoding of `s`: `_end` is the byte count. -/
def tok_parse_bytes (s : String) (fuel : Nat) : Except TokErr (List XmlEvent) :=
  tok_parse s.data (byteLength s) fuel

/-- C1: the scanner does NOT reject the XML end-of-CDATA marker in text:
the literal check in `parse_text` tests for the sequence `||>`, not `]]>`,
so `<a>]]></a>` is accepted and a `Text "]]>"` event is emitted, while the
unrelated sequence `||>` is the one rejected. -/
theorem c1_cdata_marker_not_rejected :
    tok_parse_str "<a>]]></a>" 100 =
      .ok [.startOpenTag none "a", .finishOpenTag false, .text "]]>",
           .closeTag none "a"]
    ∧ containsSub "]]>".data "<a>]]></a>".data = true
    ∧ containsSub "||>".data "]]>".data = false
    ∧ tok_parse_str "<a>||></a>" 100 =
        .error (.xml "Got unexpected marker in text data") := by
  refine ⟨rfl, by decide, by decide, rfl⟩

/-- C9 counterexample: a bytes input holding only the UTF-8 byte-order
mark consists of one multi-byte character (so the decoded length 1 is
smaller than the Stream end position 3), yet `parse` returns normally
with an empty event list: the three-position BOM skip lands exactly on
the byte-count end position. -/
theorem c9_bom_only_returns_normally_counterexample :
    (1 < Char.utf8Size (Char.ofNat 0xFEFF)
      ∧ UTF8_BOM.data.length < byteLength UTF8_BOM)
    ∧ tok_parse_bytes UTF8_BOM 100 = .ok [] := by
  refine ⟨⟨by decide, by decide⟩, rfl⟩

theorem tok_bind_ok_inv {α β : Type} {x : Except TokErr α}
    {f : α → Except TokErr β} {b : β} (h : x >>= f = Except.ok b) :
    ∃ a, x = Except.ok a ∧ f a = Except.ok b := by
  cases x with
  | error e =>
    rw [except_bind_error] at h
    exact Except.noConfusion h
  | ok a =>
    rw [except_bind_ok] at h
    exact ⟨a, rfl, h⟩

theorem get_some_lt : ∀ (data : List Char) (i : Nat) (c : Char),
    data.get? i = some c → i < data.length := by
  intro data
  induction data with
  | nil => intro i c h; exact Option.noConfusion h
  | cons x xs ih =>
    intro i c h
    cases i with
    | zero => exact Nat.succ_pos _
    | succ n => exact Nat.succ_lt_succ (ih n c h)

theorem pyIndexTok_ok {data : List Char} {i : Nat} {c : Char}
    (h : pyIndexTok data i = .ok c) : i < data.length := by
  unfold pyIndexTok at h
  split at h
  · rename_i c2 hg
    exact get_some_lt data i c2 hg
  · exact Except.noConfusion h

theorem string_mk_data (l : List Char) : (String.mk l).data = l := rfl

theorem pySlice_self (data : List Char) (i : Nat) :
    pySlice data i i = String.mk [] := by
  unfold pySlice
  rw [Nat.sub_self, List.take_zero]

theorem consume_char_ok {data : List Char} {e : Char} {pos r : Nat}
    (h : consume_char data e pos = .ok r) : r ≤ data.length := by
  unfold consume_char at h
  obtain ⟨c, hc, h⟩ := tok_bind_ok_inv h
  have hlt := pyIndexTok_ok hc
  split at h
  · injection h with h2
    omega
  · exact Except.noConfusion h

theorem consume_str_ok {data : List Char} {e : String} {pos r : Nat}
    (he : 0 < e.length) (h : consume_str data e pos = .ok r) :
    r ≤ data.length := by
  unfold consume_str at h
  split at h
  · rename_i hs
    injection h with h2
    have hlen := congrArg List.length (congrArg String.data hs)
    simp only [pySlice, string_mk_data, List.length_take, List.length_drop]
      at hlen
    have hLL : e.length = e.data.length := rfl
    omega
  · exact Except.noConfusion h

theorem skip_spaces_lt {data : List Char} {endPos : Nat}
    (hend : data.length < endPos) :
    ∀ fuel pos r, pos ≤ data.length →
      skip_spaces data endPos fuel pos = .ok r → r < data.length := by
  intro fuel
  induction fuel with
  | zero => intro pos r _ h; exact Except.noConfusion h
  | succ fuel ih =>
    intro pos r hpos h
    simp only [skip_spaces] at h
    rw [if_neg (by omega)] at h
    split at h
    · exact Except.noConfusion h
    · rename_i c hg
      have hlt := get_some_lt data pos c hg
      split at h
      · exact ih (pos + 1) r (by omega) h
      · injection h with h2
        omega

theorem consume_until_end_ok {data stops : List Char} :
    ∀ fuel pos r, consume_until_end data stops fuel pos = .ok r →
      r < data.length := by
  intro fuel
  induction fuel with
  | zero => intro pos r h; exact Except.noConfusion h
  | succ fuel ih =>
    intro pos r h
    simp only [consume_until_end] at h
    obtain ⟨c, hc, h⟩ := tok_bind_ok_inv h
    split at h
    · injection h with h2
      have := pyIndexTok_ok hc
      omega
    · exact ih (pos + 1) r h

theorem consume_until_ok {data stops : List Char} {fuel pos : Nat}
    {str : String} {r : Nat}
    (h : consume_until data stops fuel pos = .ok (str, r)) :
    r < data.length := by
  unfold consume_until at h
  obtain ⟨e, he, h⟩ := tok_bind_ok_inv h
  injection h with h2
  injection h2 with h3 h4
  have := consume_until_end_ok fuel pos e he
  omega

theorem consume_qname_loop_bound {data : List Char} {endPos : Nat}
    (hend : data.length < endPos) :
    ∀ fuel pos split p sp, pos ≤ data.length →
      consume_qname_loop data endPos fuel pos split = .ok (p, sp) →
      p ≤ data.length := by
  intro fuel
  induction fuel with
  | zero => intro pos split p sp _ h; exact Except.noConfusion h
  | succ fuel ih =>
    intro pos split p sp hpos h
    simp only [consume_qname_loop] at h
    rw [if_neg (by omega)] at h
    obtain ⟨c, hc, h⟩ := tok_bind_ok_inv h
    have hlt := pyIndexTok_ok hc
    split at h
    · split at h
      · exact ih (pos + 1) (some pos) p sp (by omega) h
      · exact Except.noConfusion h
    · split at h
      · exact ih (pos + 1) split p sp (by omega) h
      · injection h with h2
        injection h2 with h3 h4
        omega

theorem consume_qname_loop_over {data : List Char} {endPos : Nat}
    (_hend : data.length < endPos) :
    ∀ fuel pos p sp, data.length < pos →
      consume_qname_loop data endPos fuel pos none = .ok (p, sp) →
      p = pos ∧ sp = none := by
  intro fuel pos p sp hpos h
  cases fuel with
  | zero => exact Except.noConfusion h
  | succ fuel =>
    simp only [consume_qname_loop] at h
    split at h
    · injection h with h2
      injection h2 with h3 h4
      exact ⟨h3.symm, h4.symm⟩
    · obtain ⟨c, hc, h⟩ := tok_bind_ok_inv h
      have := pyIndexTok_ok hc
      omega

theorem consume_qname_bound {data : List Char} {endPos fuel start : Nat}
    {pfx : Option String} {lcl : String} {p : Nat}
    (hend : data.length < endPos)
    (h : consume_qname data endPos fuel start = .ok (pfx, lcl, p)) :
    p ≤ data.length := by
  unfold consume_qname at h
  obtain ⟨ps, hps, h⟩ := tok_bind_ok_inv h
  by_cases hstart : start ≤ data.length
  · have hq : ps.1 ≤ data.length :=
      consume_qname_loop_bound hend fuel start none ps.1 ps.2 hstart hps
    split at h
    · split at h
      · exact Except.noConfusion h
      · split at h
        · injection h with h2
          injection h2 with h3 h4
          injection h4 with h5 h6
          omega
        · exact Except.noConfusion h
    · split at h
      · exact Except.noConfusion h
      · split at h
        · exact Except.noConfusion h
        · split at h
          · exact Except.noConfusion h
          · split at h
            · injection h with h2
              injection h2 with h3 h4
              injection h4 with h5 h6
              omega
            · exact Except.noConfusion h
  · obtain ⟨hq1, hq2⟩ :=
      consume_qname_loop_over hend fuel start ps.1 ps.2 (by omega) hps
    rw [hq2] at h
    rw [hq1, pySlice_self] at h
    exact Except.noConfusion h

theorem current_char_some {data : List Char} {endPos pos : Nat} {c : Char}
    (h : current_char data endPos pos = .ok (some c)) :
    pos < data.length ∧ pos < endPos := by
  unfold current_char at h
  split at h
  · injection h with h2
    exact Option.noConfusion h2
  · rename_i hge
    cases hi : pyIndexTok data pos with
    | error e =>
      rw [hi] at h
      exact Except.noConfusion h
    | ok c2 =>
      exact ⟨pyIndexTok_ok hi, by omega⟩

theorem parse_attribute_bound {data : List Char} {endPos fuel pos : Nat}
    {pfx : Option String} {n v : String} {p : Nat}
    (h : parse_attribute data endPos fuel pos = .ok (pfx, n, v, p)) :
    p ≤ data.length := by
  unfold parse_attribute at h
  obtain ⟨a, ha, h⟩ := tok_bind_ok_inv h
  obtain ⟨pf, lc, q⟩ := a
  obtain ⟨q2, hq2, h⟩ := tok_bind_ok_inv h
  obtain ⟨qq, hqq, h⟩ := tok_bind_ok_inv h
  obtain ⟨qc, qp⟩ := qq
  obtain ⟨vv, hvv, h⟩ := tok_bind_ok_inv h
  obtain ⟨vs, vp⟩ := vv
  obtain ⟨pf2, hpf2, h⟩ := tok_bind_ok_inv h
  have := consume_char_ok hpf2
  injection h with h2
  injection h2 with h3 h4
  injection h4 with h5 h6
  injection h6 with h7 h8
  omega

theorem parse_close_element_bound {data : List Char} {endPos fuel pos : Nat}
    {ev : XmlEvent} {p : Nat} (hend : data.length < endPos)
    (h : parse_close_element data endPos fuel pos = .ok (ev, p)) :
    p ≤ data.length := by
  unfold parse_close_element at h
  obtain ⟨a, ha, h⟩ := tok_bind_ok_inv h
  obtain ⟨pf, tg, q⟩ := a
  obtain ⟨r, hr, h⟩ := tok_bind_ok_inv h
  obtain ⟨p2, hp2, h⟩ := tok_bind_ok_inv h
  have hq := consume_qname_bound hend ha
  have hrr := skip_spaces_lt hend fuel q r hq hr
  have := consume_char_ok hp2
  injection h with h2
  injection h2 with h3 h4
  omega

theorem parse_text_bound {data : List Char} {fuel pos : Nat}
    {ev : XmlEvent} {p : Nat}
    (h : parse_text data fuel pos = .ok (ev, p)) : p < data.length := by
  unfold parse_text at h
  obtain ⟨a, ha, h⟩ := tok_bind_ok_inv h
  obtain ⟨txt, e⟩ := a
  have he := consume_until_ok ha
  replace h :
      (if containsSub "||>".data txt.data = true then
        (.error (.xml "Got unexpected marker in text data") :
          Except TokErr (XmlEvent × Nat))
      else .ok (.text txt, e)) = .ok (ev, p) := h
  split at h
  · exact Except.noConfusion h
  · injection h with h2
    injection h2 with h3 h4
    omega

theorem parse_misc_bound {data : List Char} {endPos fuel pos r : Nat}
    (hend : data.length < endPos) (hpos : pos ≤ data.length)
    (h : parse_misc data endPos fuel pos = .ok r) : r ≤ data.length := by
  unfold parse_misc at h
  rw [if_neg (by omega)] at h
  obtain ⟨q, hq, h⟩ := tok_bind_ok_inv h
  have := skip_spaces_lt hend fuel pos q hpos hq
  split at h
  · exact Except.noConfusion h
  · split at h
    · exact Except.noConfusion h
    · injection h with h2
      omega

theorem parse_declaration_bound {data : List Char} {endPos fuel pos r : Nat}
    (h : parse_declaration data endPos fuel pos = .ok r) :
    r ≤ data.length := by
  unfold parse_declaration at h
  obtain ⟨q1, h1, h⟩ := tok_bind_ok_inv h
  split at h
  · exact Except.noConfusion h
  · obtain ⟨a2, ha2, h⟩ := tok_bind_ok_inv h
    obtain ⟨x1, x2, x3, q2⟩ := a2
    obtain ⟨q3, h3, h⟩ := tok_bind_ok_inv h
    obtain ⟨q4, h4, h⟩ := tok_bind_ok_inv h
    obtain ⟨q5, h5, h⟩ := tok_bind_ok_inv h
    obtain ⟨q6, h6, h⟩ := tok_bind_ok_inv h
    exact consume_str_ok (by decide) h

theorem parse_element_succ (data : List Char) (endPos fuel pos : Nat) :
    parse_element data endPos (fuel + 1) pos =
      (consume_qname data endPos fuel (pos + 1) >>= fun a =>
        match a with
        | (pfx, local_name, pos) =>
          element_loop data endPos fuel pos >>= fun b =>
            match b with
            | (evs, pos) => .ok (.startOpenTag pfx local_name :: evs, pos)) :=
  rfl

theorem element_loop_succ (data : List Char) (endPos fuel pos : Nat) :
    element_loop data endPos (fuel + 1) pos =
      (if pos ≥ endPos then .ok ([], pos)
       else
        starts_with_space data pos >>= fun has_space =>
        skip_spaces data endPos fuel pos >>= fun pos =>
        current_char data endPos pos >>= fun c =>
        if c = some '/' then
          consume_char data '>' (pos + 1) >>= fun pos =>
          .ok ([.finishOpenTag true], pos)
        else if c = some '>' then
          parse_content data endPos fuel (pos + 1) >>= fun b =>
          match b with
          | (evs, pos) => .ok (.finishOpenTag false :: evs, pos)
        else
          if !has_space then .error (.xml "Expected whitespace")
          else
            parse_attribute data endPos fuel pos >>= fun a =>
            match a with
            | (p, n, v, pos) =>
              element_loop data endPos fuel pos >>= fun b =>
              match b with
              | (evs, pos) => .ok (.attribute p n v :: evs, pos)) :=
  rfl

theorem parse_content_succ (data : List Char) (endPos fuel pos : Nat) :
    parse_content data endPos (fuel + 1) pos =
      (if pos ≥ endPos then .ok ([], pos)
       else
        current_char data endPos pos >>= fun c =>
        if c = some '<' then
          next_char data endPos pos >>= fun n =>
          if n = some '!' then .error .notImplemented
          else if n = some '?' then
            .error (.xml "Processing instructions not supported")
          else if n = some '/' then
            parse_close_element data endPos fuel pos >>= fun a =>
            match a with
            | (ev, pos) => .ok ([ev], pos)
          else
            parse_element data endPos fuel pos >>= fun a =>
            match a with
            | (evs, pos) =>
              parse_content data endPos fuel pos >>= fun b =>
              match b with
              | (evs2, pos) => .ok (evs ++ evs2, pos)
        else
          parse_text data fuel pos >>= fun a =>
          match a with
          | (ev, pos) =>
            parse_content data endPos fuel pos >>= fun b =>
            match b with
            | (evs2, pos) => .ok (ev :: evs2, pos)) :=
  rfl

theorem tok_parse_bounds {data : List Char} {endPos : Nat}
    (hend : data.length < endPos) :
    ∀ fuel,
      (∀ pos evs p, parse_element data endPos fuel pos = .ok (evs, p) →
        p ≤ data.length)
      ∧ (∀ pos evs p, pos ≤ data.length →
          element_loop data endPos fuel pos = .ok (evs, p) →
          p ≤ data.length)
      ∧ (∀ pos evs p, pos ≤ data.length →
          parse_content data endPos fuel pos = .ok (evs, p) →
          p ≤ data.length) := by
  intro fuel
  induction fuel with
  | zero =>
    refine ⟨?_, ?_, ?_⟩
    · intro pos evs p h; exact Except.noConfusion h
    · intro pos evs p _ h; exact Except.noConfusion h
    · intro pos evs p _ h; exact Except.noConfusion h
  | succ fuel ih =>
    obtain ⟨ihe, ihl, ihc⟩ := ih
    refine ⟨?_, ?_, ?_⟩
    · intro pos evs p h
      rw [parse_element_succ] at h
      obtain ⟨a, ha, h⟩ := tok_bind_ok_inv h
      obtain ⟨pf, ln, q⟩ := a
      have hq := consume_qname_bound hend ha
      obtain ⟨b, hb, h⟩ := tok_bind_ok_inv h
      obtain ⟨evs2, q2⟩ := b
      have := ihl q evs2 q2 hq hb
      injection h with h2
      injection h2 with h3 h4
      omega
    · intro pos evs p hpos h
      rw [element_loop_succ] at h
      rw [if_neg (by omega)] at h
      obtain ⟨hs, hhs, h⟩ := tok_bind_ok_inv h
      obtain ⟨q, hsk, h⟩ := tok_bind_ok_inv h
      have hqlt := skip_spaces_lt hend fuel pos q hpos hsk
      obtain ⟨c, hcc, h⟩ := tok_bind_ok_inv h
      split at h
      · obtain ⟨q2, hq2, h⟩ := tok_bind_ok_inv h
        have := consume_char_ok hq2
        injection h with h2
        injection h2 with h3 h4
        omega
      · split at h
        · rename_i hgt
          rw [hgt] at hcc
          have hql := current_char_some hcc
          obtain ⟨b, hb, h⟩ := tok_bind_ok_inv h
          obtain ⟨evs2, q2⟩ := b
          have := ihc (q + 1) evs2 q2 (by omega) hb
          injection h with h2
          injection h2 with h3 h4
          omega
        · split at h
          · exact Except.noConfusion h
          · obtain ⟨a, hatt, h⟩ := tok_bind_ok_inv h
            obtain ⟨ap, an, av, q2⟩ := a
            have hq2 := parse_attribute_bound hatt
            obtain ⟨b, hb, h⟩ := tok_bind_ok_inv h
            obtain ⟨evs2, q3⟩ := b
            have := ihl q2 evs2 q3 hq2 hb
            injection h with h2
            injection h2 with h3 h4
            omega
    · intro pos evs p hpos h
      rw [parse_content_succ] at h
      rw [if_neg (by omega)] at h
      obtain ⟨c, hcc, h⟩ := tok_bind_ok_inv h
      split at h
      · obtain ⟨n, hnc, h⟩ := tok_bind_ok_inv h
        split at h
        · exact Except.noConfusion h
        · split at h
          · exact Except.noConfusion h
          · split at h
            · obtain ⟨a, hce, h⟩ := tok_bind_ok_inv h
              obtain ⟨ev, q2⟩ := a
              have := parse_close_element_bound hend hce
              injection h with h2
              injection h2 with h3 h4
              omega
            · obtain ⟨a, hpe, h⟩ := tok_bind_ok_inv h
              obtain ⟨evs1, q1⟩ := a
              have hq1 := ihe pos evs1 q1 hpe
              obtain ⟨b, hpc, h⟩ := tok_bind_ok_inv h
              obtain ⟨evs2, q2⟩ := b
              have := ihc q1 evs2 q2 hq1 hpc
              injection h with h2
              injection h2 with h3 h4
              omega
      · obtain ⟨a, hpt, h⟩ := tok_bind_ok_inv h
        obtain ⟨ev, q1⟩ := a
        have hq1 := parse_text_bound hpt
        obtain ⟨b, hpc, h⟩ := tok_bind_ok_inv h
        obtain ⟨evs2, q2⟩ := b
        have := ihc q1 evs2 q2 (by omega) hpc
        injection h with h2
        injection h2 with h3 h4
        omega

theorem tok_parse_not_ok {data : List Char} {endPos : Nat}
    (hbom : tok_starts_with data 0 UTF8_BOM = false)
    (hend : data.length < endPos) (fuel : Nat) (evs : List XmlEvent) :
    tok_parse data endPos fuel ≠ .ok evs := by
  intro h
  unfold tok_parse at h
  have hb0 : bomSkip data = 0 := by
    unfold bomSkip
    rw [hbom]
    rfl
  rw [hb0] at h
  obtain ⟨q1, h1, h⟩ := tok_bind_ok_inv h
  have hq1 : q1 ≤ data.length := by
    split at h1
    · exact parse_declaration_bound h1
    · injection h1 with h2
      omega
  obtain ⟨q2, h2, h⟩ := tok_bind_ok_inv h
  have hq2 := parse_misc_bound hend hq1 h2
  obtain ⟨q3, h3, h⟩ := tok_bind_ok_inv h
  have hq3 := skip_spaces_lt hend fuel q2 q3 hq2 h3
  obtain ⟨c, hc, h⟩ := tok_bind_ok_inv h
  obtain ⟨ep, hep, h⟩ := tok_bind_ok_inv h
  obtain ⟨evts, q4⟩ := ep
  have hq4 : q4 ≤ data.length := by
    split at hep
    · exact (tok_parse_bounds hend fuel).1 q3 evts q4 hep
    · injection hep with h2
      injection h2 with h3 h4
      omega
  obtain ⟨q5, h5, h⟩ := tok_bind_ok_inv h
  have hq5 := parse_misc_bound hend hq4 h5
  rw [if_pos (by omega)] at h
  exact Except.noConfusion h

theorem foldl_utf8_acc : ∀ (l : List Char) (acc : Nat),
    l.foldl (fun n c => n + c.utf8Size) acc = acc + (l.map Char.utf8Size).sum := by
  intro l
  induction l with
  | nil => intro acc; simp
  | cons c l ih =>
    intro acc
    simp only [List.foldl_cons, List.map_cons, List.sum_cons]
    rw [ih]
    omega

theorem length_le_sum_utf8 : ∀ l : List Char,
    l.length ≤ (l.map Char.utf8Size).sum := by
  intro l
  induction l with
  | nil => simp
  | cons c l ih =>
    simp only [List.length_cons, List.map_cons, List.sum_cons]
    have := Char.utf8Size_pos c
    omega

theorem length_lt_sum_utf8 : ∀ (l : List Char) (c : Char), c ∈ l →
    1 < c.utf8Size → l.length < (l.map Char.utf8Size).sum := by
  intro l
  induction l with
  | nil => intro c hc _; cases hc
  | cons a l ih =>
    intro c hc hbig
    simp only [List.length_cons, List.map_cons, List.sum_cons]
    cases hc with
    | head =>
      have := length_le_sum_utf8 l
      omega
    | tail _ hmem =>
      have := ih c hmem hbig
      have := Char.utf8Size_pos a
      omega

theorem length_lt_byteLength {s : String}
    (h : ∃ c ∈ s.data, 1 < c.utf8Size) :
    s.data.length < byteLength s := by
  unfold byteLength
  rw [foldl_utf8_acc]
  obtain ⟨c, hmem, hc⟩ := h
  have := length_lt_sum_utf8 s.data c hmem hc
  omega

/-- C9 (amended): for every UTF-8 `bytes`/`memoryview` input whose decoded
text does NOT begin with a byte-order mark and contains at least one
multi-byte character, `tokenizer.parse` never returns normally: the
Stream records `_end` as the byte count, which then exceeds the decoded
length, and every successful sub-parse ends at a position no larger than
the decoded length, so the final at-end check fails whatever the
document's content (the BOM-prefixed case is excluded because the
three-position skip can compensate, see the counterexample). -/
theorem c9_bytes_multibyte_never_ok (s : String) (fuel : Nat)
    (evs : List XmlEvent)
    (hbom : tok_starts_with s.data 0 UTF8_BOM = false)
    (hmb : ∃ c ∈ s.data, 1 < c.utf8Size) :
    tok_parse_bytes s fuel ≠ .ok evs :=
  tok_parse_not_ok hbom (length_lt_byteLength hmb) fuel evs

/-- Witness for C9 at a well-formed document holding one two-byte
character: even with ample fuel the parse does not return the event
list the document denotes. -/
theorem c9_bytes_multibyte_never_ok_witness :
    tok_parse_bytes "<a>\u00E9</a>" 100 ≠
      .ok [.startOpenTag none "a", .finishOpenTag false, .text "\u00E9",
           .closeTag none "a"] :=
  c9_bytes_multibyte_never_ok "<a>\u00E9</a>" 100 _ (by decide)
    ⟨Char.ofNat 0xE9, by decide, by decide⟩

end Xmlstruct
